import Mathlib

/-!
# Verification of the taurus audit engine (`src/analyzer.rs`, `src/summaries.rs`)

Shallow embedding of the dependency-graph construction, pruning, entry-point
selection and audit traversal of `TaurusAnalyzer`, together with the sled-backed
`PersistentSummaryStore`.

Modelling conventions:
* identifier strings are `List Char`;
* Rust `HashMap`s that are only accessed by key are association lists whose
  `insert` replaces in place (as a `HashMap` does, up to iteration order);
* Rust `HashSet`s that are iterated over (the pruning work sets) are `Finset`s:
  every iteration the source performs over them produces a result that does not
  depend on iteration order, so the set value itself is the faithful state;
* `.unwrap()` on an `Option`/panic is modelled by an `Option` result at the
  level of the enclosing function (`none` = the Rust process panics);
* the recursion of `traverse` is expressed with a fuel parameter; `audit`
  passes `edges + 2` fuel, which dominates the recursion depth (every recursive
  call first inserts a fresh edge into the visited set);
* `TravState.trace` is ghost instrumentation only: it records the ids of the
  edges passed to `traverse`, in call order, and is written by no code path
  that the source does not take.  No other field depends on it.
-/

set_option linter.all false

abbrev Ident := List Char

structure SourceLocation where
  file : Ident
  line_no : Nat
deriving DecidableEq, Repr

structure Marking where
  require_audit : Option Ident
  audited : Option Ident
  is_entry_point : Bool
deriving DecidableEq, Repr

structure MarkedItem where
  marking : Marking
  src_loc : SourceLocation
deriving DecidableEq, Repr

structure DepEdge where
  callee_def : Ident
  is_lang_item : Bool
  type_params : List Ident
  src_loc : SourceLocation
deriving DecidableEq, Repr

/-- The `for ty_param in &self.type_params { ret.push_str(..); ret.push(','); }`
loop of `DepEdge::full_callee_name`. -/
def commaJoin : List Ident → Ident
  | [] => []
  | t :: ts => t ++ [','] ++ commaJoin ts

/-- `DepEdge::full_callee_name` (summaries.rs): the callee definition name with
`<`, the comma-terminated type parameters, and `>` appended. -/
def DepEdge.full_callee_name (e : DepEdge) : Ident :=
  e.callee_def ++ ['<'] ++ commaJoin e.type_params ++ ['>']

/-- `without_type_param` (analyzer.rs): `&mono_name[..mono_name.find('<').unwrap()]`.
`none` models the panic of the `unwrap` when no `'<'` occurs. -/
def without_type_param : Ident → Option Ident
  | [] => none
  | c :: rest => if c = '<' then some [] else (without_type_param rest).map (fun s => c :: s)

/-! ## Association-list primitives (Rust `HashMap` by-key access) -/

def slookup {α : Type} : List (Ident × α) → Ident → Option α
  | [], _ => none
  | (k, v) :: rest, key => if k = key then some v else slookup rest key

/-- `HashMap::insert` ignoring the returned old value: replace in place,
or append when the key is new. -/
def supdate {α : Type} (m : List (Ident × α)) (k : Ident) (v : α) : List (Ident × α) :=
  match slookup m k with
  | some _ => m.map (fun p => if p.1 = k then (k, v) else p)
  | none => m ++ [(k, v)]

/-- `HashMap::insert`, also returning the previous value under the key. -/
def ainsertRet (m : List (Ident × Nat)) (k : Ident) (v : Nat) :
    Option Nat × List (Ident × Nat) :=
  match slookup m k with
  | some old => (some old, m.map (fun p => if p.1 = k then (k, v) else p))
  | none => (none, m ++ [(k, v)])

/-- `HashMap::remove`. -/
def aremove (m : List (Ident × Nat)) (k : Ident) : List (Ident × Nat) :=
  m.filter (fun p => decide (p.1 ≠ k))

/-! ## The persistent summary store (sled variant, summaries.rs) -/

/-- `PersistentSummaryStore<V>`: a durable byte store plus an in-memory cache.
`ser`/`de` model `bincode::serialize`/`bincode::deserialize`. -/
structure PersistentSummaryStore (V : Type) where
  ser : V → List Nat
  de : List Nat → Option V
  persist_store : List (Ident × List Nat)
  inmem_store : List (Ident × V)

/-- `PersistentSummaryStore::insert`: serialize and write to the durable store,
then `HashMap::insert` into the cache, returning the cache's previous value. -/
def PersistentSummaryStore.insert {V : Type} (s : PersistentSummaryStore V)
    (k : Ident) (v : V) : Option V × PersistentSummaryStore V :=
  let persist_val := s.ser v
  (slookup s.inmem_store k,
   { s with
     persist_store := supdate s.persist_store k persist_val,
     inmem_store := supdate s.inmem_store k v })

/-- `PersistentSummaryStore::get` (sled variant): read the durable store and
deserialize.  The outer `Option` is panic-freedom of the `unwrap` on
deserialization; the inner one is presence of the key.  The in-memory cache is
not consulted (and, `get` taking `&self`, cannot be written). -/
def PersistentSummaryStore.get {V : Type} (s : PersistentSummaryStore V)
    (k : Ident) : Option (Option V) :=
  match slookup s.persist_store k with
  | none => some none
  | some bin => (s.de bin).map some

/-- `PersistentSummaryStore::len`: the durable record count. -/
def PersistentSummaryStore.len {V : Type} (s : PersistentSummaryStore V) : Nat :=
  s.persist_store.length

/-- Modelled from the spec: "`get(key) -> Optional<Value>` returns the cached
value, falling back to durable storage on cache miss and populating the cache".
This is the contract the spec states for `get`; it is compared against the
source `PersistentSummaryStore.get` above, which reads only the durable store. -/
def PersistentSummaryStore.get_spec {V : Type} (s : PersistentSummaryStore V)
    (k : Ident) : Option (Option V) × PersistentSummaryStore V :=
  match slookup s.inmem_store k with
  | some v => (some (some v), s)
  | none =>
    match slookup s.persist_store k with
    | none => (some none, s)
    | some bin =>
      match s.de bin with
      | none => (none, s)
      | some v => (some (some v), { s with inmem_store := supdate s.inmem_store k v })

/-! ## The dependency graph (petgraph `StableDiGraph<String, SourceLocation>`) -/

/-- One graph edge: petgraph edge index, endpoints, and the `SourceLocation`
weight. -/
structure GEdge where
  id : Nat
  source : Nat
  target : Nat
  weight : SourceLocation
deriving DecidableEq, Repr

/-- The dependency multigraph: node indices with their `String` weights, and
edges.  Indices are assigned by insertion order (`nodes.length` resp.
`edges.length` at insertion time), matching petgraph's fresh-index allocation
during the append-only construction phase. -/
structure DepGraph where
  nodes : List (Nat × Ident)
  edges : List GEdge
deriving DecidableEq, Repr

/-- `dg.node_weight(i)`; `none` models the `unwrap` panic on a missing index. -/
def nodeWeight (g : DepGraph) (i : Nat) : Option Ident :=
  (g.nodes.find? (fun p => decide (p.1 = i))).map (fun p => p.2)

/-- `dg.edges(i)`: the outgoing edges of node `i`. -/
def outEdges (g : DepGraph) (i : Nat) : List GEdge :=
  g.edges.filter (fun e => decide (e.source = i))

/-- `dg.edges_directed(i, Direction::Incoming)`. -/
def incomingEdges (g : DepGraph) (i : Nat) : List GEdge :=
  g.edges.filter (fun e => decide (e.target = i))

/-! ## Graph construction (`get_depgraph`, first phase) -/

/-- The mutable state of the construction loop of `get_depgraph`: the graph
being built, the `nodeidx: HashMap<String, NodeIndex>` memo of the
`get_nodeidx` closure, and the `lang_items` set. -/
structure BuildState where
  graph : DepGraph
  nodeidx : List (Ident × Nat)
  lang_items : Finset Nat

/-- The `get_nodeidx` closure: reuse the memoized index, or allocate a fresh
node. -/
def get_nodeidx (st : BuildState) (weight : Ident) : Nat × BuildState :=
  match slookup st.nodeidx weight with
  | some idx => (idx, st)
  | none =>
    let idx := st.graph.nodes.length
    (idx,
     { st with
       graph := { st.graph with nodes := st.graph.nodes ++ [(idx, weight)] },
       nodeidx := st.nodeidx ++ [(weight, idx)] })

/-- `ret.add_edge(a, b, w)` with a fresh edge index. -/
def add_edge (g : DepGraph) (a b : Nat) (w : SourceLocation) : DepGraph :=
  { g with edges := g.edges ++ [{ id := g.edges.length, source := a, target := b, weight := w }] }

/-- The inner `for call_edge in call_edges` loop: add the callee node and the
edge; record the caller as a lang item when the call edge is one. -/
def addCallEdges (caller_idx : Nat) : List DepEdge → BuildState → BuildState
  | [], st => st
  | call_edge :: rest, st =>
    let (callee_idx, st1) := get_nodeidx st call_edge.full_callee_name
    let st2 := { st1 with graph := add_edge st1.graph caller_idx callee_idx call_edge.src_loc }
    let st3 := if call_edge.is_lang_item
      then { st2 with lang_items := insert caller_idx st2.lang_items }
      else st2
    addCallEdges caller_idx rest st3

/-- The `calledge_db.for_each` loop building the graph.  sled's `for_each`
streams records in a deterministic (key-sorted) order; the store is given as
the list in that order. -/
def buildGraph : List (Ident × List DepEdge) → BuildState → BuildState
  | [], st => st
  | (caller, call_edges) :: rest, st =>
    let (caller_idx, st1) := get_nodeidx st caller
    buildGraph rest (addCallEdges caller_idx call_edges st1)

def emptyBuild : BuildState :=
  { graph := { nodes := [], edges := [] }, nodeidx := [], lang_items := ∅ }

/-! ## Pruning (`get_depgraph`, second phase)

One iteration of the `while worklist.len() > 0` loop: mark every out-edge of a
worklist node to prune, then a candidate target joins the pruning set iff all
of its incoming edges are now marked.  Within one iteration the source only
unions into `edges_to_prune`, and then tests candidates against that completed
set, so the iteration's result does not depend on any `HashSet` iteration
order; the sets themselves are the faithful state. -/

/-- The edge ids marked in one iteration: all out-edges of worklist nodes. -/
def markOut (g : DepGraph) (worklist : Finset Nat) : Finset Nat :=
  ((g.edges.filter (fun e => decide (e.source ∈ worklist))).map (fun e => e.id)).toFinset

/-- `nodes_to_inspect`: the targets of those out-edges. -/
def inspectTargets (g : DepGraph) (worklist : Finset Nat) : Finset Nat :=
  ((g.edges.filter (fun e => decide (e.source ∈ worklist))).map (fun e => e.target)).toFinset

/-- The unanimity test: every incoming edge of `n` is marked. -/
def allIncomingMarked (g : DepGraph) (edgesP : Finset Nat) (n : Nat) : Bool :=
  (incomingEdges g n).all (fun e => decide (e.id ∈ edgesP))

/-- The pruning fixed-point loop.  `get_depgraph` passes `nodes + 2` fuel,
which dominates the iteration count: every iteration with a nonempty worklist
either strictly grows `nodes_to_prune` (bounded by the node count) or empties
the next worklist. -/
def pruneLoop (g : DepGraph) :
    Nat → Finset Nat → Finset Nat → Finset Nat → Finset Nat × Finset Nat
  | 0, edgesP, nodesP, _ => (edgesP, nodesP)
  | Nat.succ fuel, edgesP, nodesP, worklist =>
    if worklist = ∅ then (edgesP, nodesP)
    else
      let edgesP1 := edgesP ∪ markOut g worklist
      let newNodes := (inspectTargets g worklist).filter
        (fun n => allIncomingMarked g edgesP1 n = true ∧ n ∉ nodesP)
      pruneLoop g fuel edgesP1 (nodesP ∪ newNodes) newNodes

/-- `for edge in edges_to_prune { ret.remove_edge(edge); }`. -/
def removeEdges (g : DepGraph) (edgesP : Finset Nat) : DepGraph :=
  { g with edges := g.edges.filter (fun e => decide (e.id ∉ edgesP)) }

/-- `for node in nodes_to_prune { ret.remove_node(node); }`; a `StableDiGraph`
removes a node's incident edges with it. -/
def removeNodes (g : DepGraph) (nodesP : Finset Nat) : DepGraph :=
  { nodes := g.nodes.filter (fun p => decide (p.1 ∉ nodesP)),
    edges := g.edges.filter (fun e => decide (e.source ∉ nodesP ∧ e.target ∉ nodesP)) }

/-! ## Entry-point selection (`get_depgraph`, last phase) -/

/-- The entry-point filter predicate on one node weight; `none` models the
panic of `without_type_param` on a weight without `'<'`. -/
def is_entry_point_at (marking_db : List (Ident × MarkedItem)) (weight : Ident) :
    Option Bool :=
  (without_type_param weight).map (fun key =>
    match slookup marking_db key with
    | some marked_item => marked_item.marking.is_entry_point
    | none => false)

/-- `ret.node_indices().filter(..)` over the surviving nodes, in index order. -/
def selectEntries (marking_db : List (Ident × MarkedItem)) :
    List (Nat × Ident) → Option (List Nat)
  | [] => some []
  | (i, w) :: rest =>
    match is_entry_point_at marking_db w with
    | none => none
    | some b =>
      match selectEntries marking_db rest with
      | none => none
      | some es => some (if b then i :: es else es)

/-- `TaurusAnalyzer::get_depgraph`: build, prune, remove, select entry points.
The marking store is given as its deserialized key/value view. -/
def get_depgraph (marking_db : List (Ident × MarkedItem))
    (calledge_db : List (Ident × List DepEdge)) : Option (DepGraph × List Nat) :=
  let bs := buildGraph calledge_db emptyBuild
  let pr := pruneLoop bs.graph (bs.graph.nodes.length + 2) ∅ bs.lang_items bs.lang_items
  let g2 := removeNodes (removeEdges bs.graph pr.1) pr.2
  (selectEntries marking_db g2.nodes).map (fun entries => (g2, entries))

/-! ## The audit traversal (`TaurusAnalyzer::audit` and the nested `traverse`) -/

abbrev ProgPoint := Ident × SourceLocation

/-- `DepPath::instantiate`: each path segment becomes (target node weight,
segment weight); `none` models the `unwrap` panic on a missing node. -/
def instantiatePath (path : List GEdge) (g : DepGraph) : Option (List ProgPoint) :=
  path.mapM (fun seg => (nodeWeight g seg.target).map (fun nm => (nm, seg.weight)))

/-- The mutable state threaded through `traverse`: the `auditor` map, the
`visited` edge set, and the two report vectors.  `trace` is ghost
instrumentation (see the file header): the edge ids passed to `traverse`, in
call order. -/
structure TravState where
  auditor : List (Ident × Nat)
  visited : List Nat
  audited : List (Ident × List ProgPoint)
  unaudited : List (List ProgPoint)
  trace : List Nat
deriving DecidableEq, Repr

/-- Step 2 of `traverse`: if the edge's source declares `audited` for a group,
install it as the active auditor, keeping the previous mapping
(`marked_item.marking.audited.map(|meta| (meta, auditor.insert(meta, parent)))`). -/
def applyAudited (marking_db : List (Ident × MarkedItem)) (parent : Nat)
    (parent_key : Ident) (auditor : List (Ident × Nat)) :
    Option (Ident × Option Nat) × List (Ident × Nat) :=
  match slookup marking_db parent_key with
  | none => (none, auditor)
  | some marked_item =>
    match marked_item.marking.audited with
    | none => (none, auditor)
    | some meta =>
      let p := ainsertRet auditor meta parent
      (some (meta, p.1), p.2)

/-- Step 5 of `traverse`: restore the auditor mapping modified in step 2 to
its prior value, or remove the entry if there was none. -/
def restoreAudited (original_auditor : Option (Ident × Option Nat))
    (auditor : List (Ident × Nat)) : List (Ident × Nat) :=
  match original_auditor with
  | none => auditor
  | some (meta, some auditor_node) => (ainsertRet auditor meta auditor_node).2
  | some (meta, none) => aremove auditor meta

/-- Step 3 of `traverse`: classify the edge's target.  Returns the updated
state and the `skip_children` flag; `none` models a panic inside the step. -/
def classifyTarget (g : DepGraph) (marking_db : List (Ident × MarkedItem))
    (dependent_key : Ident) (path : List GEdge) (st : TravState) :
    Option (TravState × Bool) :=
  match slookup marking_db dependent_key with
  | none => some (st, false)
  | some marked_item =>
    match marked_item.marking.require_audit with
    | none => some (st, false)
    | some meta =>
      match instantiatePath path g with
      | none => none
      | some dep_path =>
        match slookup st.auditor meta with
        | some auditor_idx =>
          match nodeWeight g auditor_idx with
          | none => none
          | some auditor_name =>
            some ({ st with audited := st.audited ++ [(auditor_name, dep_path)] }, false)
        | none => some ({ st with unaudited := st.unaudited ++ [dep_path] }, true)

/-- The `for edge in dg.edges(dependent)` loop of step 4: skip globally visited
edges, otherwise insert into `visited`, push onto the path, and recurse
(`rec` is `traverse` at the next fuel level). -/
def goChildren (rec : GEdge → List GEdge → TravState → Option TravState) :
    List GEdge → List GEdge → TravState → Option TravState
  | [], _, st => some st
  | e :: rest, path, st =>
    if e.id ∈ st.visited then goChildren rec rest path st
    else
      match rec e (path ++ [e]) { st with visited := e.id :: st.visited } with
      | none => none
      | some st1 => goChildren rec rest path st1

/-- The nested `traverse` of `TaurusAnalyzer::audit`.  Fuel bounds the
recursion depth; `audit` passes enough for the depth never to reach it. -/
def Taurus.traverse (g : DepGraph) (marking_db : List (Ident × MarkedItem)) :
    Nat → GEdge → List GEdge → TravState → Option TravState
  | 0, _, _, _ => none
  | Nat.succ fuel, current, path, st0 =>
    let st := { st0 with trace := st0.trace ++ [current.id] }
    match nodeWeight g current.source, nodeWeight g current.target with
    | some parent_name, some dependent_name =>
      match without_type_param parent_name with
      | none => none
      | some parent_key =>
        let pa := applyAudited marking_db current.source parent_key st.auditor
        let st1 := { st with auditor := pa.2 }
        match without_type_param dependent_name with
        | none => none
        | some dependent_key =>
          match classifyTarget g marking_db dependent_key path st1 with
          | none => none
          | some (st2, skip_children) =>
            match (if skip_children then some st2
                   else goChildren (Taurus.traverse g marking_db fuel)
                          (outEdges g current.target) path st2) with
            | none => none
            | some st3 => some { st3 with auditor := restoreAudited pa.1 st3.auditor }
    | _, _ => none

/-- The `for edge in dg.edges(entry)` loop of `audit`: each outgoing edge of
the entry point starts a traversal with `path = vec![edge]`; the edge is
neither checked against nor inserted into `visited`. -/
def topEdges (g : DepGraph) (marking_db : List (Ident × MarkedItem)) (fuel : Nat) :
    List GEdge → TravState → Option TravState
  | [], st => some st
  | edge :: rest, st =>
    match Taurus.traverse g marking_db fuel edge [edge] st with
    | none => none
    | some st1 => topEdges g marking_db fuel rest st1

/-- One entry point's processing in `audit`: `let mut visited = HashSet::new()`
is created afresh, then every outgoing edge is traversed. -/
def auditEntry (g : DepGraph) (marking_db : List (Ident × MarkedItem)) (fuel : Nat)
    (entry : Nat) (st : TravState) : Option TravState :=
  topEdges g marking_db fuel (outEdges g entry) { st with visited := [] }

/-- The `for entry in entry_points` loop of `audit`.  `entry_points` is a
`HashSet`; its iteration order is the order of the given list. -/
def auditEntries (g : DepGraph) (marking_db : List (Ident × MarkedItem)) (fuel : Nat) :
    List Nat → TravState → Option TravState
  | [], st => some st
  | entry :: rest, st =>
    match auditEntry g marking_db fuel entry st with
    | none => none
    | some st1 => auditEntries g marking_db fuel rest st1

structure AuditReport where
  audited : List (Ident × List ProgPoint)
  unaudited : List (List ProgPoint)
deriving DecidableEq, Repr

def initTrav : TravState :=
  { auditor := [], visited := [], audited := [], unaudited := [], trace := [] }

/-- `TaurusAnalyzer::audit` over the deserialized views of the two stores. -/
def audit (marking_db : List (Ident × MarkedItem))
    (calledge_db : List (Ident × List DepEdge)) : Option AuditReport :=
  match get_depgraph marking_db calledge_db with
  | none => none
  | some (dg, entry_points) =>
    match auditEntries dg marking_db (dg.edges.length + 2) entry_points initTrav with
    | none => none
    | some st => some { audited := st.audited, unaudited := st.unaudited }

/-! ## Map lemmas: `HashMap::insert`/`remove` round trips -/

lemma slookup_cons {α : Type} (a : Ident) (b : α) (tl : List (Ident × α)) (k : Ident) :
    slookup ((a, b) :: tl) k = if a = k then some b else slookup tl k := rfl

lemma slookup_eq_none_iff {α : Type} (m : List (Ident × α)) (k : Ident) :
    slookup m k = none ↔ ∀ p ∈ m, p.1 ≠ k := by
  induction m with
  | nil => simp [slookup]
  | cons hd tl ih =>
    obtain ⟨a, b⟩ := hd
    rw [slookup_cons]
    by_cases hk : a = k
    · constructor
      · intro h; rw [if_pos hk] at h; exact absurd h (by simp)
      · intro h; exact absurd hk (h (a, b) (List.mem_cons_self (a, b) tl))
    · rw [if_neg hk, ih]
      constructor
      · intro h p hp
        rcases List.mem_cons.mp hp with rfl | hp2
        · exact hk
        · exact h p hp2
      · intro h p hp; exact h p (List.mem_cons_of_mem _ hp)

lemma slookup_of_mem_nodup {α : Type} {m : List (Ident × α)} {k : Ident} {a : α}
    (hnd : (m.map Prod.fst).Nodup) (hmem : (k, a) ∈ m) : slookup m k = some a := by
  induction m with
  | nil => simp at hmem
  | cons hd tl ih =>
    obtain ⟨x, y⟩ := hd
    rw [List.map_cons, List.nodup_cons] at hnd
    rcases List.mem_cons.mp hmem with heq | htl
    · injection heq with h1 h2
      rw [slookup_cons, if_pos h1.symm, h2]
    · have hx : ¬(x = k) := fun hxk =>
        hnd.1 (by rw [hxk]; exact List.mem_map.mpr ⟨(k, a), htl, rfl⟩)
      rw [slookup_cons, if_neg hx]
      exact ih hnd.2 htl

lemma map_fst_replace {α : Type} (m : List (Ident × α)) (k : Ident) (v : α) :
    (m.map (fun p => if p.1 = k then (k, v) else p)).map Prod.fst = m.map Prod.fst := by
  induction m with
  | nil => rfl
  | cons hd tl ih =>
    obtain ⟨a, b⟩ := hd
    by_cases h : a = k <;> simp [h, ih]

lemma slookup_replace_of_some {α : Type} {m : List (Ident × α)} {k : Ident} {old : α}
    (h : slookup m k = some old) (v : α) :
    slookup (m.map (fun p => if p.1 = k then (k, v) else p)) k = some v := by
  induction m with
  | nil => exact absurd h (by simp [slookup])
  | cons hd tl ih =>
    obtain ⟨x, y⟩ := hd
    rw [List.map_cons]
    by_cases hx : x = k
    · subst hx
      rw [show (if (x, y).1 = x then (x, v) else (x, y)) = (x, v) from if_pos rfl]
      rw [slookup_cons, if_pos rfl]
    · rw [show (if (x, y).1 = k then (k, v) else (x, y)) = (x, y) from if_neg hx]
      rw [slookup_cons, if_neg hx]
      rw [slookup_cons, if_neg hx] at h
      exact ih h

lemma slookup_append_single {α : Type} {m : List (Ident × α)} {k : Ident}
    (h : slookup m k = none) (v : α) : slookup (m ++ [(k, v)]) k = some v := by
  induction m with
  | nil => rw [List.nil_append, slookup_cons, if_pos rfl]
  | cons hd tl ih =>
    obtain ⟨x, y⟩ := hd
    rw [slookup_cons] at h
    by_cases hx : x = k
    · rw [if_pos hx] at h; cases h
    · rw [if_neg hx] at h
      rw [List.cons_append, slookup_cons, if_neg hx]
      exact ih h

lemma ainsertRet_eq_none {m : List (Ident × Nat)} {k : Ident}
    (h : slookup m k = none) (v : Nat) :
    ainsertRet m k v = (none, m ++ [(k, v)]) := by
  unfold ainsertRet; rw [h]

lemma ainsertRet_eq_some {m : List (Ident × Nat)} {k : Ident} {old : Nat}
    (h : slookup m k = some old) (v : Nat) :
    ainsertRet m k v = (some old, m.map (fun p => if p.1 = k then (k, v) else p)) := by
  unfold ainsertRet; rw [h]

lemma ainsertRet_lookup (m : List (Ident × Nat)) (k : Ident) (v : Nat) :
    slookup (ainsertRet m k v).2 k = some v := by
  cases h : slookup m k with
  | none => rw [ainsertRet_eq_none h]; exact slookup_append_single h v
  | some old => rw [ainsertRet_eq_some h]; exact slookup_replace_of_some h v

lemma ainsertRet_keys_nodup {m : List (Ident × Nat)} (k : Ident) (v : Nat)
    (hnd : (m.map Prod.fst).Nodup) : ((ainsertRet m k v).2.map Prod.fst).Nodup := by
  cases h : slookup m k with
  | none =>
    rw [ainsertRet_eq_none h]
    rw [List.map_append]
    refine List.Nodup.append hnd (by simp) ?_
    intro x hx hx2
    rcases List.mem_map.mp hx with ⟨p, hp, rfl⟩
    have hne := (slookup_eq_none_iff m k).mp h p hp
    simp only [List.map_cons, List.map_nil, List.mem_singleton] at hx2
    exact hne hx2
  | some old =>
    rw [ainsertRet_eq_some h]
    rw [map_fst_replace]
    exact hnd

lemma aremove_append_self {m : List (Ident × Nat)} {k : Ident}
    (h : slookup m k = none) (v : Nat) : aremove (m ++ [(k, v)]) k = m := by
  unfold aremove
  rw [List.filter_append]
  rw [List.filter_eq_self.mpr (fun p hp => by
    simpa using (slookup_eq_none_iff m k).mp h p hp)]
  simp

lemma replace_replace_restore {m : List (Ident × Nat)} {k : Ident} {old : Nat}
    (hnd : (m.map Prod.fst).Nodup) (h : slookup m k = some old) (v : Nat) :
    (m.map (fun p => if p.1 = k then (k, v) else p)).map
      (fun p => if p.1 = k then (k, old) else p) = m := by
  rw [List.map_map]
  have hcong : ∀ p ∈ m,
      ((fun p => if p.1 = k then (k, old) else p) ∘
       (fun p => if p.1 = k then (k, v) else p)) p = id p := by
    intro p hp
    obtain ⟨a, b⟩ := p
    by_cases hak : a = k
    · have hmem : (k, b) ∈ m := hak ▸ hp
      have hlook : slookup m k = some b := slookup_of_mem_nodup hnd hmem
      rw [h] at hlook
      have hb : b = old := (Option.some.inj hlook).symm
      simp [Function.comp, hak, hb]
    · simp [Function.comp, hak]
  rw [List.map_congr_left hcong, List.map_id]

/-! ## `applyAudited` characterization and restoration -/

lemma applyAudited_db_none {db : List (Ident × MarkedItem)} {parent : Nat} {pk : Ident}
    (m : List (Ident × Nat)) (h : slookup db pk = none) :
    applyAudited db parent pk m = (none, m) := by
  unfold applyAudited; rw [h]

lemma applyAudited_au_none {db : List (Ident × MarkedItem)} {parent : Nat} {pk : Ident}
    {mi : MarkedItem} (m : List (Ident × Nat)) (h : slookup db pk = some mi)
    (h2 : mi.marking.audited = none) :
    applyAudited db parent pk m = (none, m) := by
  unfold applyAudited; rw [h]; simp only [h2]

lemma applyAudited_au_some {db : List (Ident × MarkedItem)} {parent : Nat} {pk : Ident}
    {mi : MarkedItem} {meta : Ident} (m : List (Ident × Nat))
    (h : slookup db pk = some mi) (h2 : mi.marking.audited = some meta) :
    applyAudited db parent pk m =
      (some (meta, (ainsertRet m meta parent).1), (ainsertRet m meta parent).2) := by
  unfold applyAudited; rw [h]; simp only [h2]

/-- Restoration of the auditor map is exact: step 5 undoes step 2. -/
lemma applyAudited_restore {db : List (Ident × MarkedItem)} {parent : Nat}
    {pk : Ident} {m : List (Ident × Nat)} (hnd : (m.map Prod.fst).Nodup) :
    restoreAudited (applyAudited db parent pk m).1 (applyAudited db parent pk m).2 = m := by
  cases hdb : slookup db pk with
  | none => rw [applyAudited_db_none m hdb]; rfl
  | some mi =>
    cases hau : mi.marking.audited with
    | none => rw [applyAudited_au_none m hdb hau]; rfl
    | some meta =>
      rw [applyAudited_au_some m hdb hau]
      cases hold : slookup m meta with
      | none =>
        rw [ainsertRet_eq_none hold]
        show aremove (m ++ [(meta, parent)]) meta = m
        exact aremove_append_self hold parent
      | some old =>
        rw [ainsertRet_eq_some hold]
        show (ainsertRet (m.map fun p => if p.1 = meta then (meta, parent) else p) meta old).2 = m
        rw [ainsertRet_eq_some (slookup_replace_of_some hold parent)]
        exact replace_replace_restore hnd hold parent

lemma applyAudited_keys_nodup {db : List (Ident × MarkedItem)} {parent : Nat}
    {pk : Ident} {m : List (Ident × Nat)} (hnd : (m.map Prod.fst).Nodup) :
    ((applyAudited db parent pk m).2.map Prod.fst).Nodup := by
  cases hdb : slookup db pk with
  | none => rw [applyAudited_db_none m hdb]; exact hnd
  | some mi =>
    cases hau : mi.marking.audited with
    | none => rw [applyAudited_au_none m hdb hau]; exact hnd
    | some meta =>
      rw [applyAudited_au_some m hdb hau]
      exact ainsertRet_keys_nodup meta parent hnd

/-! ## `classifyTarget` characterization -/

lemma classifyTarget_no_mark {g : DepGraph} {db : List (Ident × MarkedItem)}
    {key : Ident} (path : List GEdge) (st : TravState)
    (hm : slookup db key = none) :
    classifyTarget g db key path st = some (st, false) := by
  unfold classifyTarget; rw [hm]

lemma classifyTarget_no_req {g : DepGraph} {db : List (Ident × MarkedItem)}
    {key : Ident} {mi : MarkedItem} (path : List GEdge) (st : TravState)
    (hm : slookup db key = some mi) (hr : mi.marking.require_audit = none) :
    classifyTarget g db key path st = some (st, false) := by
  unfold classifyTarget; rw [hm]; simp only [hr]

lemma classifyTarget_audited {g : DepGraph} {db : List (Ident × MarkedItem)}
    {key : Ident} {mi : MarkedItem} {meta : Ident} {dp : List ProgPoint}
    {aidx : Nat} {anm : Ident} (path : List GEdge) (st : TravState)
    (hm : slookup db key = some mi) (hr : mi.marking.require_audit = some meta)
    (hip : instantiatePath path g = some dp)
    (ha : slookup st.auditor meta = some aidx)
    (hw : nodeWeight g aidx = some anm) :
    classifyTarget g db key path st =
      some ({ st with audited := st.audited ++ [(anm, dp)] }, false) := by
  unfold classifyTarget; rw [hm]; simp only [hr, hip, ha, hw]

lemma classifyTarget_unaudited {g : DepGraph} {db : List (Ident × MarkedItem)}
    {key : Ident} {mi : MarkedItem} {meta : Ident} {dp : List ProgPoint}
    (path : List GEdge) (st : TravState)
    (hm : slookup db key = some mi) (hr : mi.marking.require_audit = some meta)
    (hip : instantiatePath path g = some dp)
    (ha : slookup st.auditor meta = none) :
    classifyTarget g db key path st =
      some ({ st with unaudited := st.unaudited ++ [dp] }, true) := by
  unfold classifyTarget; rw [hm]; simp only [hr, hip, ha]

/-- Whatever `classifyTarget` does, it only appends report entries and leaves
auditor, visited and trace untouched. -/
lemma classifyTarget_spec {g : DepGraph} {db : List (Ident × MarkedItem)}
    {key : Ident} {path : List GEdge} {st st2 : TravState} {b : Bool}
    (h : classifyTarget g db key path st = some (st2, b)) :
    st2.auditor = st.auditor ∧ st2.visited = st.visited ∧ st2.trace = st.trace ∧
    ∃ da du, st2.audited = st.audited ++ da ∧ st2.unaudited = st.unaudited ++ du := by
  unfold classifyTarget at h
  cases hm : slookup db key with
  | none =>
    rw [hm] at h
    simp only [Option.some.injEq, Prod.mk.injEq] at h
    rw [← h.1]
    exact ⟨rfl, rfl, rfl, [], [], by simp, by simp⟩
  | some mi =>
    rw [hm] at h
    cases hr : mi.marking.require_audit with
    | none =>
      simp only [hr, Option.some.injEq, Prod.mk.injEq] at h
      rw [← h.1]
      exact ⟨rfl, rfl, rfl, [], [], by simp, by simp⟩
    | some meta =>
      cases hip : instantiatePath path g with
      | none => simp only [hr, hip] at h; exact Option.noConfusion h
      | some dp =>
        cases ha : slookup st.auditor meta with
        | none =>
          simp only [hr, hip, ha, Option.some.injEq, Prod.mk.injEq] at h
          rw [← h.1]
          exact ⟨rfl, rfl, rfl, [], [dp], by simp, by simp⟩
        | some aidx =>
          cases hw : nodeWeight g aidx with
          | none => simp only [hr, hip, ha, hw] at h; exact Option.noConfusion h
          | some anm =>
            simp only [hr, hip, ha, hw, Option.some.injEq, Prod.mk.injEq] at h
            rw [← h.1]
            exact ⟨rfl, rfl, rfl, [(anm, dp)], [], by simp, by simp⟩

/-! ## Inversion of one `traverse` call -/

/-- Unfolding a successful `traverse` call into its stages: resolve both node
weights, strip the parent name and install its auditor (step 2), strip the
target name and classify it (step 3), run or skip the children loop (step 4),
restore the auditor (step 5). -/
lemma traverse_inv {g : DepGraph} {db : List (Ident × MarkedItem)} {fuel : Nat}
    {cur : GEdge} {path : List GEdge} {st0 st' : TravState}
    (h : Taurus.traverse g db (Nat.succ fuel) cur path st0 = some st') :
    ∃ pn dn pk dk st2 skip st3,
      nodeWeight g cur.source = some pn ∧
      nodeWeight g cur.target = some dn ∧
      without_type_param pn = some pk ∧
      without_type_param dn = some dk ∧
      classifyTarget g db dk path
        { st0 with
          trace := st0.trace ++ [cur.id],
          auditor := (applyAudited db cur.source pk st0.auditor).2 } = some (st2, skip) ∧
      (if skip then some st2
       else goChildren (Taurus.traverse g db fuel) (outEdges g cur.target) path st2) = some st3 ∧
      st' = { st3 with
              auditor := restoreAudited (applyAudited db cur.source pk st0.auditor).1
                           st3.auditor } := by
  unfold Taurus.traverse at h
  cases hw1 : nodeWeight g cur.source with
  | none => rw [hw1] at h; simp at h
  | some pn =>
    cases hw2 : nodeWeight g cur.target with
    | none => rw [hw1, hw2] at h; simp at h
    | some dn =>
      rw [hw1, hw2] at h
      simp only at h
      cases hp1 : without_type_param pn with
      | none => simp only [hp1] at h; exact Option.noConfusion h
      | some pk =>
        cases hp2 : without_type_param dn with
        | none => simp only [hp1, hp2] at h; exact Option.noConfusion h
        | some dk =>
          simp only [hp1, hp2] at h
          cases hc : classifyTarget g db dk path
              { st0 with
                trace := st0.trace ++ [cur.id],
                auditor := (applyAudited db cur.source pk st0.auditor).2 } with
          | none => rw [hc] at h; simp at h
          | some pr =>
            obtain ⟨st2, skip⟩ := pr
            rw [hc] at h
            simp only at h
            cases hg : (if skip then some st2
                else goChildren (Taurus.traverse g db fuel) (outEdges g cur.target) path st2) with
            | none => rw [hg] at h; simp at h
            | some st3 =>
              rw [hg] at h
              simp only [Option.some.injEq] at h
              exact ⟨pn, dn, pk, dk, st2, skip, st3, rfl, rfl, hp1, hp2, hc, hg, h.symm⟩

/-! ## Auditor scoping: every `traverse` call restores the auditor map -/

lemma goChildren_auditor {rec : GEdge → List GEdge → TravState → Option TravState}
    (hrec : ∀ e p st st1, (st.auditor.map Prod.fst).Nodup → rec e p st = some st1 →
      st1.auditor = st.auditor) :
    ∀ (es path : List GEdge) (st st1 : TravState), (st.auditor.map Prod.fst).Nodup →
      goChildren rec es path st = some st1 → st1.auditor = st.auditor := by
  intro es
  induction es with
  | nil =>
    intro path st st1 hnd h
    unfold goChildren at h
    simp only [Option.some.injEq] at h
    rw [← h]
  | cons e rest ih =>
    intro path st st1 hnd h
    unfold goChildren at h
    by_cases hv : e.id ∈ st.visited
    · rw [if_pos hv] at h
      exact ih path st st1 hnd h
    · rw [if_neg hv] at h
      cases hr : rec e (path ++ [e]) { st with visited := e.id :: st.visited } with
      | none => rw [hr] at h; exact Option.noConfusion h
      | some stc =>
        rw [hr] at h
        have h1 : stc.auditor = st.auditor :=
          hrec e (path ++ [e]) { st with visited := e.id :: st.visited } stc (by exact hnd) hr
        have h2 := ih path stc st1 (by rw [h1]; exact hnd) h
        rw [h2, h1]

/-- On return, `traverse` has restored the auditor mapping for the group it
modified to its prior value (or removed it): the auditor map is unchanged. -/
lemma traverse_auditor {g : DepGraph} {db : List (Ident × MarkedItem)} :
    ∀ (fuel : Nat) (cur : GEdge) (path : List GEdge) (st st1 : TravState),
      (st.auditor.map Prod.fst).Nodup →
      Taurus.traverse g db fuel cur path st = some st1 → st1.auditor = st.auditor := by
  intro fuel
  induction fuel with
  | zero => intro cur path st st1 _ h; exact Option.noConfusion h
  | succ n ih =>
    intro cur path st st1 hnd h
    obtain ⟨pn, dn, pk, dk, st2, skip, st3, hw1, hw2, hp1, hp2, hc, hg, hst⟩ := traverse_inv h
    have hcs := classifyTarget_spec hc
    have hnd2 : (st2.auditor.map Prod.fst).Nodup := by
      rw [hcs.1]; exact applyAudited_keys_nodup hnd
    have h3 : st3.auditor = st2.auditor := by
      cases skip with
      | true =>
        rw [if_pos rfl] at hg
        rw [← Option.some.inj hg]
      | false =>
        rw [if_neg (by simp)] at hg
        exact goChildren_auditor (fun e p s s1 hn hh => ih e p s s1 hn hh) _ path st2 st3 hnd2 hg
    rw [hst]
    show restoreAudited (applyAudited db cur.source pk st.auditor).1 st3.auditor = st.auditor
    rw [h3, hcs.1]
    show restoreAudited (applyAudited db cur.source pk st.auditor).1
      (applyAudited db cur.source pk st.auditor).2 = st.auditor
    exact applyAudited_restore hnd

/-! ## The visited set only grows -/

lemma goChildren_visited {rec : GEdge → List GEdge → TravState → Option TravState}
    (hrec : ∀ e p st st1, rec e p st = some st1 → st.visited ⊆ st1.visited) :
    ∀ (es path : List GEdge) (st st1 : TravState),
      goChildren rec es path st = some st1 → st.visited ⊆ st1.visited := by
  intro es
  induction es with
  | nil =>
    intro path st st1 h
    unfold goChildren at h
    simp only [Option.some.injEq] at h
    rw [← h]
    exact fun x hx => hx
  | cons e rest ih =>
    intro path st st1 h
    unfold goChildren at h
    by_cases hv : e.id ∈ st.visited
    · rw [if_pos hv] at h
      exact ih path st st1 h
    · rw [if_neg hv] at h
      cases hr : rec e (path ++ [e]) { st with visited := e.id :: st.visited } with
      | none => rw [hr] at h; exact Option.noConfusion h
      | some stc =>
        rw [hr] at h
        have h1 : (e.id :: st.visited) ⊆ stc.visited := hrec _ _ _ _ hr
        have h2 := ih path stc st1 h
        exact fun x hx => h2 (h1 (List.mem_cons_of_mem _ hx))

lemma traverse_visited {g : DepGraph} {db : List (Ident × MarkedItem)} :
    ∀ (fuel : Nat) (cur : GEdge) (path : List GEdge) (st st1 : TravState),
      Taurus.traverse g db fuel cur path st = some st1 → st.visited ⊆ st1.visited := by
  intro fuel
  induction fuel with
  | zero => intro cur path st st1 h; exact Option.noConfusion h
  | succ n ih =>
    intro cur path st st1 h
    obtain ⟨pn, dn, pk, dk, st2, skip, st3, hw1, hw2, hp1, hp2, hc, hg, hst⟩ := traverse_inv h
    have hcs := classifyTarget_spec hc
    have h3 : st2.visited ⊆ st3.visited := by
      cases skip with
      | true =>
        rw [if_pos rfl] at hg
        rw [← Option.some.inj hg]
        exact fun x hx => hx
      | false =>
        rw [if_neg (by simp)] at hg
        exact goChildren_visited (fun e p s s1 hh => ih e p s s1 hh) _ path st2 st3 hg
    rw [hst]
    show st.visited ⊆ st3.visited
    rw [← hcs.2.1]
    exact h3

/-! ## Unfolding equations and a forward builder for `traverse` -/

lemma goChildren_nil {rec : GEdge → List GEdge → TravState → Option TravState}
    (path : List GEdge) (st : TravState) : goChildren rec [] path st = some st := rfl

lemma goChildren_cons_visited {rec : GEdge → List GEdge → TravState → Option TravState}
    {e : GEdge} {st : TravState} (rest path : List GEdge) (hv : e.id ∈ st.visited) :
    goChildren rec (e :: rest) path st = goChildren rec rest path st := by
  show (if e.id ∈ st.visited then goChildren rec rest path st
        else match rec e (path ++ [e]) { st with visited := e.id :: st.visited } with
             | none => none
             | some st1 => goChildren rec rest path st1) = goChildren rec rest path st
  rw [if_pos hv]

lemma goChildren_cons_fresh {rec : GEdge → List GEdge → TravState → Option TravState}
    {e : GEdge} {st : TravState} (rest path : List GEdge) (hv : e.id ∉ st.visited) :
    goChildren rec (e :: rest) path st =
      match rec e (path ++ [e]) { st with visited := e.id :: st.visited } with
      | none => none
      | some st1 => goChildren rec rest path st1 := by
  show (if e.id ∈ st.visited then goChildren rec rest path st
        else match rec e (path ++ [e]) { st with visited := e.id :: st.visited } with
             | none => none
             | some st1 => goChildren rec rest path st1) = _
  rw [if_neg hv]

/-- Forward direction of `traverse_inv`: assemble one successful call. -/
lemma traverse_build {g : DepGraph} {db : List (Ident × MarkedItem)} {fuel : Nat}
    {cur : GEdge} {path : List GEdge} {st0 : TravState}
    {pn dn pk dk : Ident} {st2 st3 : TravState} {skip : Bool}
    (hw1 : nodeWeight g cur.source = some pn)
    (hw2 : nodeWeight g cur.target = some dn)
    (hp1 : without_type_param pn = some pk)
    (hp2 : without_type_param dn = some dk)
    (hc : classifyTarget g db dk path
      { st0 with
        trace := st0.trace ++ [cur.id],
        auditor := (applyAudited db cur.source pk st0.auditor).2 } = some (st2, skip))
    (hg : (if skip then some st2
           else goChildren (Taurus.traverse g db fuel) (outEdges g cur.target) path st2) =
          some st3) :
    Taurus.traverse g db (Nat.succ fuel) cur path st0 =
      some { st3 with
             auditor := restoreAudited (applyAudited db cur.source pk st0.auditor).1
                          st3.auditor } := by
  unfold Taurus.traverse
  rw [hw1, hw2]
  simp only [hp1, hp2]
  rw [hc]
  simp only
  rw [hg]

/-! ## Frame property: reports and trace are append-only and independent -/

/-- `classifyTarget` appends report entries whose content does not depend on
the initial report or trace, and leaves every other field unchanged. -/
lemma classifyTarget_transplant {g : DepGraph} {db : List (Ident × MarkedItem)}
    {key : Ident} {path : List GEdge} {st st2 : TravState} {b : Bool}
    (h : classifyTarget g db key path st = some (st2, b)) :
    ∃ da du,
      st2.audited = st.audited ++ da ∧ st2.unaudited = st.unaudited ++ du ∧
      ∀ ra ru tr,
        classifyTarget g db key path { st with audited := ra, unaudited := ru, trace := tr } =
          some ({ st2 with audited := ra ++ da, unaudited := ru ++ du, trace := tr }, b) := by
  cases hm : slookup db key with
  | none =>
    rw [classifyTarget_no_mark path st hm] at h
    simp only [Option.some.injEq, Prod.mk.injEq] at h
    obtain ⟨h1, h2⟩ := h
    subst h1; subst h2
    refine ⟨[], [], by simp, by simp, fun ra ru tr => ?_⟩
    rw [classifyTarget_no_mark path _ hm]
    simp
  | some mi =>
    cases hr : mi.marking.require_audit with
    | none =>
      rw [classifyTarget_no_req path st hm hr] at h
      simp only [Option.some.injEq, Prod.mk.injEq] at h
      obtain ⟨h1, h2⟩ := h
      subst h1; subst h2
      refine ⟨[], [], by simp, by simp, fun ra ru tr => ?_⟩
      rw [classifyTarget_no_req path _ hm hr]
      simp
    | some meta =>
      cases hip : instantiatePath path g with
      | none =>
        exfalso
        unfold classifyTarget at h
        rw [hm] at h
        simp only [hr, hip] at h
        exact Option.noConfusion h
      | some dp =>
        cases ha : slookup st.auditor meta with
        | none =>
          rw [classifyTarget_unaudited path st hm hr hip ha] at h
          simp only [Option.some.injEq, Prod.mk.injEq] at h
          obtain ⟨h1, h2⟩ := h
          subst h2
          refine ⟨[], [dp], ?_, ?_, fun ra ru tr => ?_⟩
          · rw [← h1]; simp
          · rw [← h1]
          · rw [classifyTarget_unaudited path _ hm hr hip (by exact ha)]
            rw [← h1]
            simp
        | some aidx =>
          cases hw : nodeWeight g aidx with
          | none =>
            exfalso
            unfold classifyTarget at h
            rw [hm] at h
            simp only [hr, hip, ha, hw] at h
            exact Option.noConfusion h
          | some anm =>
            rw [classifyTarget_audited path st hm hr hip ha hw] at h
            simp only [Option.some.injEq, Prod.mk.injEq] at h
            obtain ⟨h1, h2⟩ := h
            subst h2
            refine ⟨[(anm, dp)], [], ?_, ?_, fun ra ru tr => ?_⟩
            · rw [← h1]
            · rw [← h1]; simp
            · rw [classifyTarget_audited path _ hm hr hip (by exact ha) hw]
              rw [← h1]
              simp

/-- Transplant property of the children loop, given it for the recursive
calls. -/
lemma goChildren_transplant {rec : GEdge → List GEdge → TravState → Option TravState}
    (hrec : ∀ e p s s1, rec e p s = some s1 → ∃ da du dt,
      s1.audited = s.audited ++ da ∧ s1.unaudited = s.unaudited ++ du ∧
      s1.trace = s.trace ++ dt ∧
      ∀ ra ru tr, rec e p { s with audited := ra, unaudited := ru, trace := tr } =
        some { s1 with audited := ra ++ da, unaudited := ru ++ du, trace := tr ++ dt }) :
    ∀ (es path : List GEdge) (st st1 : TravState),
      goChildren rec es path st = some st1 → ∃ da du dt,
      st1.audited = st.audited ++ da ∧ st1.unaudited = st.unaudited ++ du ∧
      st1.trace = st.trace ++ dt ∧
      ∀ ra ru tr,
        goChildren rec es path { st with audited := ra, unaudited := ru, trace := tr } =
          some { st1 with audited := ra ++ da, unaudited := ru ++ du, trace := tr ++ dt } := by
  intro es
  induction es with
  | nil =>
    intro path st st1 h
    rw [goChildren_nil] at h
    rw [← Option.some.inj h]
    refine ⟨[], [], [], by simp, by simp, by simp, fun ra ru tr => ?_⟩
    rw [goChildren_nil]
    simp
  | cons e rest ih =>
    intro path st st1 h
    by_cases hv : e.id ∈ st.visited
    · rw [goChildren_cons_visited rest path hv] at h
      obtain ⟨da, du, dt, h1, h2, h3, htr⟩ := ih path st st1 h
      exact ⟨da, du, dt, h1, h2, h3, fun ra ru tr => by
        rw [goChildren_cons_visited rest path (by exact hv)]
        exact htr ra ru tr⟩
    · rw [goChildren_cons_fresh rest path hv] at h
      cases hr : rec e (path ++ [e]) { st with visited := e.id :: st.visited } with
      | none => rw [hr] at h; exact Option.noConfusion h
      | some stc =>
        rw [hr] at h
        simp only at h
        obtain ⟨da1, du1, dt1, ha1, hu1, ht1, htr1⟩ := hrec _ _ _ _ hr
        obtain ⟨da2, du2, dt2, ha2, hu2, ht2, htr2⟩ := ih path stc st1 h
        refine ⟨da1 ++ da2, du1 ++ du2, dt1 ++ dt2, ?_, ?_, ?_, fun ra ru tr => ?_⟩
        · rw [ha2, ha1]; simp
        · rw [hu2, hu1]; simp
        · rw [ht2, ht1]; simp
        · rw [goChildren_cons_fresh rest path (by exact hv)]
          have := htr1 ra ru tr
          rw [show ({ st with audited := ra, unaudited := ru, trace := tr } : TravState).visited
              = st.visited from rfl] at this ⊢
          rw [this]
          simp only
          have h2 := htr2 (ra ++ da1) (ru ++ du1) (tr ++ dt1)
          rw [h2]
          simp [List.append_assoc]

/-- Frame property of `traverse`: the report and trace growth of a call does
not depend on the initial report or trace, which are only appended to. -/
lemma traverse_transplant {g : DepGraph} {db : List (Ident × MarkedItem)} :
    ∀ (fuel : Nat) (cur : GEdge) (path : List GEdge) (st st1 : TravState),
      Taurus.traverse g db fuel cur path st = some st1 → ∃ da du dt,
      st1.audited = st.audited ++ da ∧ st1.unaudited = st.unaudited ++ du ∧
      st1.trace = st.trace ++ dt ∧
      ∀ ra ru tr,
        Taurus.traverse g db fuel cur path
            { st with audited := ra, unaudited := ru, trace := tr } =
          some { st1 with audited := ra ++ da, unaudited := ru ++ du, trace := tr ++ dt } := by
  intro fuel
  induction fuel with
  | zero => intro cur path st st1 h; exact Option.noConfusion h
  | succ n ih =>
    intro cur path st st1 h
    obtain ⟨pn, dn, pk, dk, st2, skip, st3, hw1, hw2, hp1, hp2, hc, hg, hst⟩ := traverse_inv h
    have hcs := classifyTarget_spec hc
    obtain ⟨cda, cdu, hca, hcu, hctr⟩ := classifyTarget_transplant hc
    have hchild : ∃ gda gdu gdt,
        st3.audited = st2.audited ++ gda ∧ st3.unaudited = st2.unaudited ++ gdu ∧
        st3.trace = st2.trace ++ gdt ∧
        ∀ ra ru tr,
          (if skip then some ({ st2 with audited := ra, unaudited := ru, trace := tr } : TravState)
           else goChildren (Taurus.traverse g db n) (outEdges g cur.target) path
                  { st2 with audited := ra, unaudited := ru, trace := tr }) =
            some { st3 with audited := ra ++ gda, unaudited := ru ++ gdu, trace := tr ++ gdt } := by
      cases skip with
      | true =>
        rw [if_pos rfl] at hg
        have h23 := Option.some.inj hg
        subst h23
        exact ⟨[], [], [], by simp, by simp, by simp, fun ra ru tr => by
          rw [if_pos rfl]; simp⟩
      | false =>
        rw [if_neg (by simp)] at hg
        obtain ⟨gda, gdu, gdt, h1, h2, h3, htr⟩ :=
          goChildren_transplant (fun e p s s1 hh => ih e p s s1 hh) _ path st2 st3 hg
        exact ⟨gda, gdu, gdt, h1, h2, h3, fun ra ru tr => by
          rw [if_neg (by simp)]; exact htr ra ru tr⟩
    obtain ⟨gda, gdu, gdt, hga, hgu, hgt, hgtr⟩ := hchild
    have hta : st3.audited = st.audited ++ (cda ++ gda) := by
      rw [hga, hca]
      simp [List.append_assoc]
    have htu : st3.unaudited = st.unaudited ++ (cdu ++ gdu) := by
      rw [hgu, hcu]
      simp [List.append_assoc]
    have htt : st3.trace = st.trace ++ ([cur.id] ++ gdt) := by
      rw [hgt, hcs.2.2.1]
      simp [List.append_assoc]
    refine ⟨cda ++ gda, cdu ++ gdu, [cur.id] ++ gdt, ?_, ?_, ?_, ?_⟩
    · rw [hst]; exact hta
    · rw [hst]; exact htu
    · rw [hst]; exact htt
    · intro ra ru tr
      have hcmod := hctr ra ru (tr ++ [cur.id])
      have hgmod := hgtr (ra ++ cda) (ru ++ cdu) (tr ++ [cur.id])
      have hb : Taurus.traverse g db (Nat.succ n) cur path
          { st with audited := ra, unaudited := ru, trace := tr } =
          some { st3 with
                 audited := (ra ++ cda) ++ gda,
                 unaudited := (ru ++ cdu) ++ gdu,
                 trace := (tr ++ [cur.id]) ++ gdt,
                 auditor := restoreAudited (applyAudited db cur.source pk st.auditor).1
                              st3.auditor } :=
        traverse_build hw1 hw2 hp1 hp2 (by exact hcmod) (by exact hgmod)
      rw [hb, hst]
      simp [List.append_assoc]

/-! ## Ghost-trace structure: recursive calls only log fresh edges, once -/

lemma goChildren_trace {rec : GEdge → List GEdge → TravState → Option TravState}
    (hrecT : ∀ e p s s1, rec e p s = some s1 → ∃ dt,
      s1.trace = s.trace ++ [e.id] ++ dt ∧ dt.Nodup ∧
      ∀ x ∈ dt, x ∉ s.visited ∧ x ∈ s1.visited)
    (hrecV : ∀ e p s s1, rec e p s = some s1 → s.visited ⊆ s1.visited) :
    ∀ (es path : List GEdge) (st st1 : TravState),
      goChildren rec es path st = some st1 → ∃ dt,
      st1.trace = st.trace ++ dt ∧ dt.Nodup ∧
      ∀ x ∈ dt, x ∉ st.visited ∧ x ∈ st1.visited := by
  intro es
  induction es with
  | nil =>
    intro path st st1 h
    rw [goChildren_nil] at h
    rw [← Option.some.inj h]
    exact ⟨[], by simp, by simp, by simp⟩
  | cons e rest ih =>
    intro path st st1 h
    by_cases hv : e.id ∈ st.visited
    · rw [goChildren_cons_visited rest path hv] at h
      exact ih path st st1 h
    · rw [goChildren_cons_fresh rest path hv] at h
      cases hr : rec e (path ++ [e]) { st with visited := e.id :: st.visited } with
      | none => rw [hr] at h; exact Option.noConfusion h
      | some stc =>
        rw [hr] at h
        simp only at h
        obtain ⟨dt1, ht1, hn1, hf1⟩ := hrecT _ _ _ _ hr
        obtain ⟨dt2, ht2, hn2, hf2⟩ := ih path stc st1 h
        have hsv : (e.id :: st.visited) ⊆ stc.visited := hrecV _ _ _ _ hr
        have hcv : stc.visited ⊆ st1.visited :=
          goChildren_visited hrecV rest path stc st1 h
        refine ⟨e.id :: (dt1 ++ dt2), ?_, ?_, ?_⟩
        · rw [ht2, ht1]
          simp
        · refine List.nodup_cons.mpr ⟨?_, List.Nodup.append hn1 hn2 ?_⟩
          · intro hmem
            rcases List.mem_append.mp hmem with h1 | h2
            · exact (hf1 e.id h1).1 (List.mem_cons_self _ _)
            · exact (hf2 e.id h2).1 (hsv (List.mem_cons_self _ _))
          · intro x hx1 hx2
            exact (hf2 x hx2).1 ((hf1 x hx1).2)
        · intro x hx
          rcases List.mem_cons.mp hx with rfl | hx2
          · exact ⟨hv, hcv (hsv (List.mem_cons_self _ _))⟩
          rcases List.mem_append.mp hx2 with h1 | h2
          · exact ⟨fun hmem => (hf1 x h1).1 (List.mem_cons_of_mem _ hmem),
              hcv (hf1 x h1).2⟩
          · exact ⟨fun hmem => (hf2 x h2).1 (hsv (List.mem_cons_of_mem _ hmem)),
              (hf2 x h2).2⟩

/-- Each `traverse` call logs its own edge, then only edges that were not yet
visited when it started, each at most once, and all of them visited on
return. -/
lemma traverse_trace {g : DepGraph} {db : List (Ident × MarkedItem)} :
    ∀ (fuel : Nat) (cur : GEdge) (path : List GEdge) (st st1 : TravState),
      Taurus.traverse g db fuel cur path st = some st1 → ∃ dt,
      st1.trace = st.trace ++ [cur.id] ++ dt ∧ dt.Nodup ∧
      ∀ x ∈ dt, x ∉ st.visited ∧ x ∈ st1.visited := by
  intro fuel
  induction fuel with
  | zero => intro cur path st st1 h; exact Option.noConfusion h
  | succ n ih =>
    intro cur path st st1 h
    obtain ⟨pn, dn, pk, dk, st2, skip, st3, hw1, hw2, hp1, hp2, hc, hg, hst⟩ := traverse_inv h
    have hcs := classifyTarget_spec hc
    have hchild : ∃ dt, st3.trace = st2.trace ++ dt ∧ dt.Nodup ∧
        ∀ x ∈ dt, x ∉ st2.visited ∧ x ∈ st3.visited := by
      cases skip with
      | true =>
        rw [if_pos rfl] at hg
        rw [← Option.some.inj hg]
        exact ⟨[], by simp, by simp, by simp⟩
      | false =>
        rw [if_neg (by simp)] at hg
        exact goChildren_trace (fun e p s s1 hh => ih e p s s1 hh)
          (fun e p s s1 hh => traverse_visited n e p s s1 hh) _ path st2 st3 hg
    obtain ⟨dt, ht, hn, hf⟩ := hchild
    refine ⟨dt, ?_, hn, ?_⟩
    · rw [hst]
      show st3.trace = _
      rw [ht, hcs.2.2.1]
    · intro x hx
      constructor
      · intro hmem
        exact (hf x hx).1 (by rw [hcs.2.1]; exact hmem)
      · rw [hst]
        exact (hf x hx).2

/-! ## The entry-point loops of `audit` -/

lemma topEdges_nil {g : DepGraph} {db : List (Ident × MarkedItem)} {fuel : Nat}
    (st : TravState) : topEdges g db fuel [] st = some st := rfl

lemma topEdges_cons {g : DepGraph} {db : List (Ident × MarkedItem)} {fuel : Nat}
    (e : GEdge) (rest : List GEdge) (st : TravState) :
    topEdges g db fuel (e :: rest) st =
      match Taurus.traverse g db fuel e [e] st with
      | none => none
      | some st1 => topEdges g db fuel rest st1 := rfl

lemma topEdges_auditor {g : DepGraph} {db : List (Ident × MarkedItem)} {fuel : Nat} :
    ∀ (es : List GEdge) (st st1 : TravState), (st.auditor.map Prod.fst).Nodup →
      topEdges g db fuel es st = some st1 → st1.auditor = st.auditor := by
  intro es
  induction es with
  | nil =>
    intro st st1 _ h
    rw [topEdges_nil] at h
    rw [← Option.some.inj h]
  | cons e rest ih =>
    intro st st1 hnd h
    rw [topEdges_cons] at h
    cases hr : Taurus.traverse g db fuel e [e] st with
    | none => rw [hr] at h; exact Option.noConfusion h
    | some stc =>
      rw [hr] at h
      simp only at h
      have h1 : stc.auditor = st.auditor := traverse_auditor fuel e [e] st stc hnd hr
      have h2 := ih stc st1 (by rw [h1]; exact hnd) h
      rw [h2, h1]

lemma topEdges_visited {g : DepGraph} {db : List (Ident × MarkedItem)} {fuel : Nat} :
    ∀ (es : List GEdge) (st st1 : TravState),
      topEdges g db fuel es st = some st1 → st.visited ⊆ st1.visited := by
  intro es
  induction es with
  | nil =>
    intro st st1 h
    rw [topEdges_nil] at h
    rw [← Option.some.inj h]
    exact fun x hx => hx
  | cons e rest ih =>
    intro st st1 h
    rw [topEdges_cons] at h
    cases hr : Taurus.traverse g db fuel e [e] st with
    | none => rw [hr] at h; exact Option.noConfusion h
    | some stc =>
      rw [hr] at h
      simp only at h
      exact fun x hx => ih stc st1 h (traverse_visited fuel e [e] st stc hr hx)

lemma topEdges_transplant {g : DepGraph} {db : List (Ident × MarkedItem)} {fuel : Nat} :
    ∀ (es : List GEdge) (st st1 : TravState),
      topEdges g db fuel es st = some st1 → ∃ da du dt,
      st1.audited = st.audited ++ da ∧ st1.unaudited = st.unaudited ++ du ∧
      st1.trace = st.trace ++ dt ∧
      ∀ ra ru tr,
        topEdges g db fuel es { st with audited := ra, unaudited := ru, trace := tr } =
          some { st1 with audited := ra ++ da, unaudited := ru ++ du, trace := tr ++ dt } := by
  intro es
  induction es with
  | nil =>
    intro st st1 h
    rw [topEdges_nil] at h
    rw [← Option.some.inj h]
    refine ⟨[], [], [], by simp, by simp, by simp, fun ra ru tr => ?_⟩
    rw [topEdges_nil]
    simp
  | cons e rest ih =>
    intro st st1 h
    rw [topEdges_cons] at h
    cases hr : Taurus.traverse g db fuel e [e] st with
    | none => rw [hr] at h; exact Option.noConfusion h
    | some stc =>
      rw [hr] at h
      simp only at h
      obtain ⟨da1, du1, dt1, ha1, hu1, ht1, htr1⟩ := traverse_transplant fuel e [e] st stc hr
      obtain ⟨da2, du2, dt2, ha2, hu2, ht2, htr2⟩ := ih stc st1 h
      refine ⟨da1 ++ da2, du1 ++ du2, dt1 ++ dt2, ?_, ?_, ?_, fun ra ru tr => ?_⟩
      · rw [ha2, ha1]; simp
      · rw [hu2, hu1]; simp
      · rw [ht2, ht1]; simp
      · rw [topEdges_cons]
        rw [htr1 ra ru tr]
        simp only
        rw [htr2 (ra ++ da1) (ru ++ du1) (tr ++ dt1)]
        simp [List.append_assoc]

/-- Count bound along one entry's top-level loop: an edge can be logged once
per occurrence among the loop's own edges, plus at most once by all the
recursive, visited-checked descents together. -/
lemma topEdges_count {g : DepGraph} {db : List (Ident × MarkedItem)} {fuel : Nat} :
    ∀ (es : List GEdge) (st st1 : TravState),
      topEdges g db fuel es st = some st1 → ∃ dt,
      st1.trace = st.trace ++ dt ∧
      ∀ x, dt.count x ≤
        (es.map (fun e => e.id)).count x + (if x ∈ st.visited then 0 else 1) := by
  intro es
  induction es with
  | nil =>
    intro st st1 h
    rw [topEdges_nil] at h
    rw [← Option.some.inj h]
    exact ⟨[], by simp, fun x => by simp⟩
  | cons e rest ih =>
    intro st st1 h
    rw [topEdges_cons] at h
    cases hr : Taurus.traverse g db fuel e [e] st with
    | none => rw [hr] at h; exact Option.noConfusion h
    | some stc =>
      rw [hr] at h
      simp only at h
      obtain ⟨dt1, ht1, hn1, hf1⟩ := traverse_trace fuel e [e] st stc hr
      obtain ⟨dt2, ht2, hb2⟩ := ih stc st1 h
      have hsub : st.visited ⊆ stc.visited := traverse_visited fuel e [e] st stc hr
      refine ⟨([e.id] ++ dt1) ++ dt2, ?_, ?_⟩
      · rw [ht2, ht1]; simp
      · intro x
        have hcnt1 : dt1.count x ≤ if x ∈ st.visited then 0 else 1 := by
          by_cases hv : x ∈ st.visited
          · rw [if_pos hv, Nat.le_zero, List.count_eq_zero]
            intro hmem
            exact (hf1 x hmem).1 hv
          · rw [if_neg hv]
            exact List.nodup_iff_count_le_one.mp hn1 x
        have hstep : dt1.count x + (if x ∈ stc.visited then 0 else 1) ≤
            (if x ∈ st.visited then 0 else 1) := by
          by_cases hv : x ∈ st.visited
          · rw [if_pos hv, if_pos (hsub hv)]
            simpa [if_pos hv] using hcnt1
          · rw [if_neg hv]
            by_cases hc1 : x ∈ dt1
            · rw [if_pos (hf1 x hc1).2]
              simpa [if_neg hv] using hcnt1
            · rw [List.count_eq_zero.mpr hc1]
              by_cases hv2 : x ∈ stc.visited
              · rw [if_pos hv2]; omega
              · rw [if_neg hv2]
        have hb2x := hb2 x
        rw [List.count_append, List.count_append, List.map_cons, List.count_cons,
          List.count_cons]
        simp only [List.count_nil, beq_iff_eq]
        by_cases he : e.id = x
        · simp only [if_pos he]
          omega
        · simp only [if_neg he]
          omega

/-! ## One entry point is an independent unit of work -/

lemma auditEntry_auditor {g : DepGraph} {db : List (Ident × MarkedItem)} {fuel n : Nat}
    {st st1 : TravState} (hnd : (st.auditor.map Prod.fst).Nodup)
    (h : auditEntry g db fuel n st = some st1) : st1.auditor = st.auditor := by
  exact topEdges_auditor (outEdges g n) { st with visited := [] } st1 (by exact hnd) h

/-- Per-entry-point trace growth: every edge id occurs at most twice — at most
once among the entry's own out-edges (not visited-checked), at most once in
all recursive descents together. -/
lemma auditEntry_count {g : DepGraph} {db : List (Ident × MarkedItem)} {fuel n : Nat}
    {st st1 : TravState} (hnd : ((g.edges.map (fun e => e.id)).Nodup))
    (h : auditEntry g db fuel n st = some st1) :
    ∃ dt, st1.trace = st.trace ++ dt ∧ ∀ x, dt.count x ≤ 2 := by
  obtain ⟨dt, ht, hb⟩ := topEdges_count (outEdges g n) { st with visited := [] } st1 h
  refine ⟨dt, by exact ht, fun x => ?_⟩
  have hsub : ((outEdges g n).map (fun e => e.id)).Sublist (g.edges.map (fun e => e.id)) :=
    List.Sublist.map _ (List.filter_sublist _)
  have hnd2 : ((outEdges g n).map (fun e => e.id)).Nodup := List.Nodup.sublist hsub hnd
  have h1 := List.nodup_iff_count_le_one.mp hnd2 x
  have h2 := hb x
  have h3 : (if x ∈ (({ st with visited := [] } : TravState).visited) then 0 else 1) = 1 := by
    simp
  omega

/-- The reports an entry point contributes, computed from a pristine state
carrying only the auditor map (which is all the entry's traversal can read
from the incoming state: the visited set is created afresh). -/
def runEntry (g : DepGraph) (db : List (Ident × MarkedItem)) (fuel : Nat)
    (a : List (Ident × Nat)) (n : Nat) :
    Option (List (Ident × List ProgPoint) × List (List ProgPoint)) :=
  (auditEntry g db fuel n
    { auditor := a, visited := [], audited := [], unaudited := [], trace := [] }).map
    (fun st => (st.audited, st.unaudited))

lemma auditEntry_decomp {g : DepGraph} {db : List (Ident × MarkedItem)} {fuel n : Nat}
    {st st1 : TravState} (h : auditEntry g db fuel n st = some st1) :
    ∃ da du, runEntry g db fuel st.auditor n = some (da, du) ∧
      st1.audited = st.audited ++ da ∧ st1.unaudited = st.unaudited ++ du := by
  obtain ⟨da, du, dt, ha, hu, ht, htr⟩ :=
    topEdges_transplant (outEdges g n) { st with visited := [] } st1 h
  have h1 : auditEntry g db fuel n
      { auditor := st.auditor, visited := [], audited := [], unaudited := [], trace := [] } =
      some { st1 with audited := [] ++ da, unaudited := [] ++ du, trace := [] ++ dt } :=
    htr [] [] []
  refine ⟨da, du, ?_, by exact ha, by exact hu⟩
  unfold runEntry
  rw [h1]
  simp

lemma auditEntry_of_runEntry {g : DepGraph} {db : List (Ident × MarkedItem)} {fuel n : Nat}
    {st : TravState} {da : List (Ident × List ProgPoint)} {du : List (List ProgPoint)}
    (h : runEntry g db fuel st.auditor n = some (da, du)) :
    ∃ st1, auditEntry g db fuel n st = some st1 ∧
      st1.audited = st.audited ++ da ∧ st1.unaudited = st.unaudited ++ du := by
  unfold runEntry at h
  cases hr : auditEntry g db fuel n
      { auditor := st.auditor, visited := [], audited := [], unaudited := [], trace := [] } with
  | none => rw [hr] at h; exact Option.noConfusion h
  | some stc =>
    rw [hr] at h
    simp only [Option.map_some', Option.some.injEq, Prod.mk.injEq] at h
    obtain ⟨hda, hdu⟩ := h
    obtain ⟨da0, du0, dt0, ha0, hu0, ht0, htr0⟩ :=
      topEdges_transplant (outEdges g n)
        { auditor := st.auditor, visited := [], audited := [], unaudited := [], trace := [] }
        stc hr
    have h2 : auditEntry g db fuel n st =
        some { stc with
               audited := st.audited ++ da0,
               unaudited := st.unaudited ++ du0,
               trace := st.trace ++ dt0 } :=
      htr0 st.audited st.unaudited st.trace
    refine ⟨_, h2, ?_, ?_⟩
    · show st.audited ++ da0 = st.audited ++ da
      rw [← hda, ha0]
      simp
    · show st.unaudited ++ du0 = st.unaudited ++ du
      rw [← hdu, hu0]
      simp

/-! ## `mapO`: effectful map over `Option`, for stating the decomposition -/

def mapO {α β : Type} (f : α → Option β) : List α → Option (List β)
  | [] => some []
  | a :: rest =>
    match f a with
    | none => none
    | some b =>
      match mapO f rest with
      | none => none
      | some bs => some (b :: bs)

lemma auditEntries_nil {g : DepGraph} {db : List (Ident × MarkedItem)} {fuel : Nat}
    (st : TravState) : auditEntries g db fuel [] st = some st := rfl

lemma auditEntries_cons {g : DepGraph} {db : List (Ident × MarkedItem)} {fuel : Nat}
    (n : Nat) (rest : List Nat) (st : TravState) :
    auditEntries g db fuel (n :: rest) st =
      match auditEntry g db fuel n st with
      | none => none
      | some st1 => auditEntries g db fuel rest st1 := rfl

/-- Forward decomposition: a successful multi-entry run is the concatenation
of its entries' independent contributions, all computed against the same
(restored, hence initial) auditor map. -/
lemma auditEntries_decomp {g : DepGraph} {db : List (Ident × MarkedItem)} {fuel : Nat} :
    ∀ (es : List Nat) (st st1 : TravState), (st.auditor.map Prod.fst).Nodup →
      auditEntries g db fuel es st = some st1 →
      ∃ ds, mapO (runEntry g db fuel st.auditor) es = some ds ∧
        st1.audited = st.audited ++ (ds.map Prod.fst).flatten ∧
        st1.unaudited = st.unaudited ++ (ds.map Prod.snd).flatten := by
  intro es
  induction es with
  | nil =>
    intro st st1 _ h
    rw [auditEntries_nil] at h
    rw [← Option.some.inj h]
    exact ⟨[], rfl, by simp [List.flatten], by simp [List.flatten]⟩
  | cons n rest ih =>
    intro st st1 hnd h
    rw [auditEntries_cons] at h
    cases hA : auditEntry g db fuel n st with
    | none => rw [hA] at h; exact Option.noConfusion h
    | some stA =>
      rw [hA] at h
      simp only at h
      obtain ⟨da, du, hrun, ha, hu⟩ := auditEntry_decomp hA
      have haud : stA.auditor = st.auditor := auditEntry_auditor hnd hA
      obtain ⟨ds, hds, h1, h2⟩ := ih stA st1 (by rw [haud]; exact hnd) h
      rw [haud] at hds
      refine ⟨(da, du) :: ds, ?_, ?_, ?_⟩
      · unfold mapO
        rw [hrun, hds]
      · rw [h1, ha]
        simp [List.flatten]
      · rw [h2, hu]
        simp [List.flatten]

/-- Converse: if every entry's independent contribution succeeds, the
sequential run succeeds. -/
lemma auditEntries_of_mapO {g : DepGraph} {db : List (Ident × MarkedItem)} {fuel : Nat} :
    ∀ (es : List Nat) (st : TravState), (st.auditor.map Prod.fst).Nodup →
      ∀ ds, mapO (runEntry g db fuel st.auditor) es = some ds →
      ∃ st1, auditEntries g db fuel es st = some st1 := by
  intro es
  induction es with
  | nil => intro st _ ds _; exact ⟨st, rfl⟩
  | cons n rest ih =>
    intro st hnd ds h
    unfold mapO at h
    cases hr : runEntry g db fuel st.auditor n with
    | none => rw [hr] at h; exact Option.noConfusion h
    | some p =>
      obtain ⟨da, du⟩ := p
      rw [hr] at h
      simp only at h
      cases hrest : mapO (runEntry g db fuel st.auditor) rest with
      | none => rw [hrest] at h; exact Option.noConfusion h
      | some ds' =>
        obtain ⟨stA, hA, _, _⟩ := auditEntry_of_runEntry hr
        have haud : stA.auditor = st.auditor := auditEntry_auditor hnd hA
        obtain ⟨st1, h1⟩ := ih stA (by rw [haud]; exact hnd) ds' (by rw [haud]; exact hrest)
        refine ⟨st1, ?_⟩
        rw [auditEntries_cons, hA]
        exact h1

/-! ## Permutation lemmas: iteration order of the entry-point set -/

lemma perm_flatten {α : Type} {l1 l2 : List (List α)} (h : l1.Perm l2) :
    l1.flatten.Perm l2.flatten := by
  induction h with
  | nil => exact List.Perm.refl _
  | cons x _ ih =>
    simp only [List.flatten_cons]
    exact ih.append_left x
  | swap x y l =>
    simp only [List.flatten_cons]
    rw [← List.append_assoc, ← List.append_assoc]
    exact (List.perm_append_comm).append_right _
  | trans _ _ ih1 ih2 => exact ih1.trans ih2

lemma mapO_none_iff {α β : Type} {f : α → Option β} :
    ∀ es : List α, mapO f es = none ↔ ∃ a ∈ es, f a = none := by
  intro es
  induction es with
  | nil => simp [mapO]
  | cons a rest ih =>
    constructor
    · intro h
      unfold mapO at h
      cases hx : f a with
      | none => exact ⟨a, List.mem_cons_self a rest, hx⟩
      | some b =>
        rw [hx] at h
        simp only at h
        cases ht : mapO f rest with
        | none =>
          obtain ⟨a2, ha2, hfa2⟩ := ih.mp ht
          exact ⟨a2, List.mem_cons_of_mem a ha2, hfa2⟩
        | some bs =>
          rw [ht] at h
          simp only at h
          exact Option.noConfusion h
    · intro ⟨a2, ha2, hfa2⟩
      unfold mapO
      rcases List.mem_cons.mp ha2 with rfl | hmem
      · rw [hfa2]
      · cases hx : f a with
        | none => rfl
        | some b =>
          simp only
          rw [ih.mpr ⟨a2, hmem, hfa2⟩]

lemma mapO_cons_some {α β : Type} {f : α → Option β} {a : α} {rest : List α}
    {ds : List β} (h : mapO f (a :: rest) = some ds) :
    ∃ b bs, f a = some b ∧ mapO f rest = some bs ∧ ds = b :: bs := by
  unfold mapO at h
  cases hx : f a with
  | none => rw [hx] at h; exact Option.noConfusion h
  | some b =>
    rw [hx] at h
    simp only at h
    cases ht : mapO f rest with
    | none => rw [ht] at h; exact Option.noConfusion h
    | some bs =>
      rw [ht] at h
      simp only at h
      exact ⟨b, bs, rfl, rfl, (Option.some.inj h).symm⟩

/-- `mapO` along a permutation: successful results are permutations. -/
lemma mapO_perm {α β : Type} {f : α → Option β} :
    ∀ {es1 es2 : List α}, es1.Perm es2 →
      ∀ {ds1 ds2 : List β}, mapO f es1 = some ds1 → mapO f es2 = some ds2 →
        ds1.Perm ds2 := by
  intro es1 es2 hp
  induction hp with
  | nil =>
    intro ds1 ds2 h1 h2
    simp only [mapO, Option.some.injEq] at h1 h2
    rw [← h1, ← h2]
  | cons x hp ih =>
    intro ds1 ds2 h1 h2
    obtain ⟨b1, bs1, hx1, ht1, rfl⟩ := mapO_cons_some h1
    obtain ⟨b2, bs2, hx2, ht2, rfl⟩ := mapO_cons_some h2
    rw [hx1] at hx2
    rw [← Option.some.inj hx2]
    exact List.Perm.cons b1 (ih ht1 ht2)
  | swap x y l =>
    intro ds1 ds2 h1 h2
    obtain ⟨by1, rest1, hy1, ht1, rfl⟩ := mapO_cons_some h1
    obtain ⟨bx1, bs1, hx1, hl1, rfl⟩ := mapO_cons_some ht1
    obtain ⟨bx2, rest2, hx2, ht2, rfl⟩ := mapO_cons_some h2
    obtain ⟨by2, bs2, hy2, hl2, rfl⟩ := mapO_cons_some ht2
    rw [hy1] at hy2
    rw [hx1] at hx2
    rw [hl1] at hl2
    rw [← Option.some.inj hy2, ← Option.some.inj hx2, ← Option.some.inj hl2]
    exact List.Perm.swap bx1 by1 bs1
  | trans hp1 hp2 ih1 ih2 =>
    intro ds1 ds2 h1 h2
    cases hm : mapO f _ with
    | none =>
      exfalso
      obtain ⟨a, ha, hfa⟩ := (mapO_none_iff _).mp hm
      have : mapO f _ = none := (mapO_none_iff _).mpr ⟨a, (hp1.mem_iff).mpr ha, hfa⟩
      rw [this] at h1
      exact Option.noConfusion h1
    | some dsm =>
      exact (ih1 h1 hm).trans (ih2 hm h2)

/-- `mapO` fails on a permuted list iff it fails on the original. -/
lemma mapO_perm_none {α β : Type} {f : α → Option β} {es1 es2 : List α}
    (hp : es1.Perm es2) : mapO f es1 = none ↔ mapO f es2 = none := by
  rw [mapO_none_iff, mapO_none_iff]
  constructor
  · intro ⟨a, ha, hfa⟩; exact ⟨a, hp.mem_iff.mp ha, hfa⟩
  · intro ⟨a, ha, hfa⟩; exact ⟨a, hp.mem_iff.mpr ha, hfa⟩

/-! ## Pruning loop: equations, monotonicity, soundness -/

lemma pruneLoop_zero (g : DepGraph) (eP nP wl : Finset Nat) :
    pruneLoop g 0 eP nP wl = (eP, nP) := rfl

lemma pruneLoop_succ_empty {wl : Finset Nat} (g : DepGraph) (fuel : Nat)
    (eP nP : Finset Nat) (h : wl = ∅) :
    pruneLoop g (Nat.succ fuel) eP nP wl = (eP, nP) := by
  show (if wl = ∅ then (eP, nP)
        else pruneLoop g fuel (eP ∪ markOut g wl)
          (nP ∪ (inspectTargets g wl).filter
            (fun n => allIncomingMarked g (eP ∪ markOut g wl) n = true ∧ n ∉ nP))
          ((inspectTargets g wl).filter
            (fun n => allIncomingMarked g (eP ∪ markOut g wl) n = true ∧ n ∉ nP))) = (eP, nP)
  rw [if_pos h]

lemma pruneLoop_succ_ne {wl : Finset Nat} (g : DepGraph) (fuel : Nat)
    (eP nP : Finset Nat) (h : ¬wl = ∅) :
    pruneLoop g (Nat.succ fuel) eP nP wl =
      pruneLoop g fuel (eP ∪ markOut g wl)
        (nP ∪ (inspectTargets g wl).filter
          (fun n => allIncomingMarked g (eP ∪ markOut g wl) n = true ∧ n ∉ nP))
        ((inspectTargets g wl).filter
          (fun n => allIncomingMarked g (eP ∪ markOut g wl) n = true ∧ n ∉ nP)) := by
  show (if wl = ∅ then (eP, nP)
        else pruneLoop g fuel (eP ∪ markOut g wl)
          (nP ∪ (inspectTargets g wl).filter
            (fun n => allIncomingMarked g (eP ∪ markOut g wl) n = true ∧ n ∉ nP))
          ((inspectTargets g wl).filter
            (fun n => allIncomingMarked g (eP ∪ markOut g wl) n = true ∧ n ∉ nP))) = _
  rw [if_neg h]

lemma pruneLoop_mono (g : DepGraph) :
    ∀ (fuel : Nat) (eP nP wl : Finset Nat),
      eP ⊆ (pruneLoop g fuel eP nP wl).1 ∧ nP ⊆ (pruneLoop g fuel eP nP wl).2 := by
  intro fuel
  induction fuel with
  | zero =>
    intro eP nP wl
    rw [pruneLoop_zero]
    exact ⟨Finset.Subset.refl _, Finset.Subset.refl _⟩
  | succ n ih =>
    intro eP nP wl
    by_cases h : wl = ∅
    · rw [pruneLoop_succ_empty g n eP nP h]
      exact ⟨Finset.Subset.refl _, Finset.Subset.refl _⟩
    · rw [pruneLoop_succ_ne g n eP nP h]
      obtain ⟨h1, h2⟩ := ih (eP ∪ markOut g wl) _ _
      exact ⟨Finset.Subset.trans Finset.subset_union_left h1,
        Finset.Subset.trans Finset.subset_union_left h2⟩

lemma mem_markOut {g : DepGraph} {wl : Finset Nat} {i : Nat} (h : i ∈ markOut g wl) :
    ∃ e, e ∈ g.edges ∧ e.id = i ∧ e.source ∈ wl := by
  unfold markOut at h
  rw [List.mem_toFinset] at h
  rcases List.mem_map.mp h with ⟨e, he, rfl⟩
  rcases List.mem_filter.mp he with ⟨he1, he2⟩
  exact ⟨e, he1, rfl, by simpa using he2⟩

lemma mem_incomingEdges {g : DepGraph} {N : Nat} {e : GEdge}
    (h1 : e ∈ g.edges) (h2 : e.target = N) : e ∈ incomingEdges g N := by
  unfold incomingEdges
  exact List.mem_filter.mpr ⟨h1, by simp [h2]⟩

lemma allIncomingMarked_spec {g : DepGraph} {eP : Finset Nat} {N : Nat} {e : GEdge}
    (hall : allIncomingMarked g eP N = true) (h1 : e ∈ g.edges) (h2 : e.target = N) :
    e.id ∈ eP := by
  unfold allIncomingMarked at hall
  have := List.all_eq_true.mp hall e (mem_incomingEdges h1 h2)
  simpa using this

/-- Soundness of unanimity pruning: a node with an incoming edge whose source
is never pruned is itself never pruned (unless it was in the initial set). -/
lemma pruneLoop_not_pruned {g : DepGraph} {N : Nat} {e : GEdge}
    (hids : (g.edges.map (fun e => e.id)).Nodup)
    (hmem : e ∈ g.edges) (htgt : e.target = N) :
    ∀ (fuel : Nat) (eP nP wl : Finset Nat), wl ⊆ nP → N ∉ nP → e.id ∉ eP →
      e.source ∉ (pruneLoop g fuel eP nP wl).2 →
      N ∉ (pruneLoop g fuel eP nP wl).2 := by
  intro fuel
  induction fuel with
  | zero =>
    intro eP nP wl _ hN _ _
    rw [pruneLoop_zero]
    exact hN
  | succ n ih =>
    intro eP nP wl hw hN he hsrc
    by_cases h : wl = ∅
    · rw [pruneLoop_succ_empty g n eP nP h]
      exact hN
    · rw [pruneLoop_succ_ne g n eP nP h] at hsrc ⊢
      have heM : e.id ∉ eP ∪ markOut g wl := by
        intro hcon
        rcases Finset.mem_union.mp hcon with h1 | h2
        · exact he h1
        · obtain ⟨e2, he2, hid2, hsrc2⟩ := mem_markOut h2
          have : e2 = e := List.inj_on_of_nodup_map hids he2 hmem hid2
          rw [this] at hsrc2
          exact hsrc ((pruneLoop_mono g n _ _ _).2 (Finset.mem_union_left _ (hw hsrc2)))
      have hNnew : N ∉ nP ∪ (inspectTargets g wl).filter
          (fun n => allIncomingMarked g (eP ∪ markOut g wl) n = true ∧ n ∉ nP) := by
        intro hcon
        rcases Finset.mem_union.mp hcon with h1 | h2
        · exact hN h1
        · obtain ⟨_, hmarked, _⟩ := Finset.mem_filter.mp h2
          exact heM (allIncomingMarked_spec hmarked hmem htgt)
      exact ih _ _ _ Finset.subset_union_right hNnew heM hsrc

/-- Final pruned edges all spring from pruned nodes. -/
lemma pruneLoop_edges_sources {g : DepGraph}
    (hids : (g.edges.map (fun e => e.id)).Nodup) :
    ∀ (fuel : Nat) (eP nP wl : Finset Nat), wl ⊆ nP →
      (∀ e ∈ g.edges, e.id ∈ eP → e.source ∈ nP) →
      ∀ e ∈ g.edges, e.id ∈ (pruneLoop g fuel eP nP wl).1 →
        e.source ∈ (pruneLoop g fuel eP nP wl).2 := by
  intro fuel
  induction fuel with
  | zero =>
    intro eP nP wl _ hstart e he hid
    rw [pruneLoop_zero] at hid ⊢
    exact hstart e he hid
  | succ n ih =>
    intro eP nP wl hw hstart e he hid
    by_cases h : wl = ∅
    · rw [pruneLoop_succ_empty g n eP nP h] at hid ⊢
      exact hstart e he hid
    · rw [pruneLoop_succ_ne g n eP nP h] at hid ⊢
      refine ih _ _ _ Finset.subset_union_right ?_ e he hid
      intro e2 he2 hid2
      rcases Finset.mem_union.mp hid2 with h1 | h2
      · exact Finset.mem_union_left _ (hstart e2 he2 h1)
      · obtain ⟨e3, he3, hid3, hsrc3⟩ := mem_markOut h2
        have : e3 = e2 := List.inj_on_of_nodup_map hids he3 he2 hid3
        rw [this] at hsrc3
        exact Finset.mem_union_left _ (hw hsrc3)

/-- Completeness in the unanimous case: a node all of whose direct callers are
in the initial worklist is pruned in the first iteration. -/
lemma pruneLoop_prunes_first {g : DepGraph} {N : Nat} {lang : Finset Nat} {fuel : Nat}
    (hin : ∃ e, e ∈ g.edges ∧ e.target = N)
    (hall : ∀ e ∈ g.edges, e.target = N → e.source ∈ lang) :
    N ∈ (pruneLoop g (Nat.succ fuel) ∅ lang lang).2 := by
  obtain ⟨e0, he0, ht0⟩ := hin
  have hlsrc : e0.source ∈ lang := hall e0 he0 ht0
  by_cases hNl : N ∈ lang
  · exact (pruneLoop_mono g _ _ _ _).2 hNl
  · have hne : ¬lang = ∅ := Finset.ne_empty_of_mem hlsrc
    rw [pruneLoop_succ_ne g fuel ∅ lang hne]
    refine (pruneLoop_mono g fuel _ _ _).2 (Finset.mem_union_right _ ?_)
    refine Finset.mem_filter.mpr ⟨?_, ?_, hNl⟩
    · unfold inspectTargets
      rw [List.mem_toFinset]
      exact List.mem_map.mpr ⟨e0, List.mem_filter.mpr ⟨he0, by simpa using hlsrc⟩, ht0⟩
    · unfold allIncomingMarked
      rw [List.all_eq_true]
      intro e2 he2
      rcases List.mem_filter.mp he2 with ⟨he2g, he2t⟩
      have ht2 : e2.target = N := by simpa using he2t
      refine decide_eq_true (Finset.mem_union_right _ ?_)
      unfold markOut
      rw [List.mem_toFinset]
      exact List.mem_map.mpr ⟨e2,
        List.mem_filter.mpr ⟨he2g, by simpa using hall e2 he2g ht2⟩, rfl⟩

/-! ## Construction invariants: edge ids are allocated consecutively -/

lemma get_nodeidx_edges (st : BuildState) (w : Ident) :
    (get_nodeidx st w).2.graph.edges = st.graph.edges := by
  unfold get_nodeidx
  cases h : slookup st.nodeidx w with
  | some idx => rfl
  | none => rfl

lemma addCallEdges_cons {st st1 : BuildState} {ci : Nat} (caller : Nat) (ce : DepEdge)
    (rest : List DepEdge) (hgn : get_nodeidx st ce.full_callee_name = (ci, st1)) :
    addCallEdges caller (ce :: rest) st =
      addCallEdges caller rest
        (if ce.is_lang_item
         then { graph := add_edge st1.graph caller ci ce.src_loc,
                nodeidx := st1.nodeidx,
                lang_items := insert caller st1.lang_items }
         else { st1 with graph := add_edge st1.graph caller ci ce.src_loc }) := by
  show (match get_nodeidx st ce.full_callee_name with
        | (callee_idx, st2) =>
          addCallEdges caller rest
            (if ce.is_lang_item = true
             then { graph := add_edge st2.graph caller callee_idx ce.src_loc,
                    nodeidx := st2.nodeidx,
                    lang_items := insert caller st2.lang_items }
             else { graph := add_edge st2.graph caller callee_idx ce.src_loc,
                    nodeidx := st2.nodeidx,
                    lang_items := st2.lang_items })) = _
  rw [hgn]

lemma addCallEdges_ids (caller : Nat) :
    ∀ (ces : List DepEdge) (st : BuildState),
      st.graph.edges.map (fun e => e.id) = List.range st.graph.edges.length →
      (addCallEdges caller ces st).graph.edges.map (fun e => e.id) =
        List.range (addCallEdges caller ces st).graph.edges.length := by
  intro ces
  induction ces with
  | nil => intro st h; exact h
  | cons ce rest ih =>
    intro st h
    obtain ⟨ci, st1, hgn⟩ : ∃ ci st1, get_nodeidx st ce.full_callee_name = (ci, st1) :=
      ⟨_, _, rfl⟩
    have hedges1 : st1.graph.edges = st.graph.edges := by
      have := get_nodeidx_edges st ce.full_callee_name
      rw [hgn] at this
      exact this
    rw [addCallEdges_cons caller ce rest hgn]
    apply ih
    have hstep : ∀ bs : BuildState, bs.graph = add_edge st1.graph caller ci ce.src_loc →
        bs.graph.edges.map (fun e => e.id) = List.range bs.graph.edges.length := by
      intro bs hbs
      rw [hbs]
      unfold add_edge
      simp only [List.map_append, List.length_append, hedges1, h]
      simp [List.range_succ]
    cases hl : ce.is_lang_item
    · rw [if_neg (by simp [hl])]
      exact hstep _ rfl
    · rw [if_pos (by simp [hl])]
      exact hstep _ rfl

lemma buildGraph_cons {st st1 : BuildState} {ci : Nat} (caller : Ident)
    (ces : List DepEdge) (rest : List (Ident × List DepEdge))
    (hgn : get_nodeidx st caller = (ci, st1)) :
    buildGraph ((caller, ces) :: rest) st = buildGraph rest (addCallEdges ci ces st1) := by
  show (match get_nodeidx st caller with
        | (caller_idx, st2) => buildGraph rest (addCallEdges caller_idx ces st2)) =
      buildGraph rest (addCallEdges ci ces st1)
  rw [hgn]

lemma buildGraph_ids :
    ∀ (cdb : List (Ident × List DepEdge)) (st : BuildState),
      st.graph.edges.map (fun e => e.id) = List.range st.graph.edges.length →
      (buildGraph cdb st).graph.edges.map (fun e => e.id) =
        List.range (buildGraph cdb st).graph.edges.length := by
  intro cdb
  induction cdb with
  | nil => intro st h; exact h
  | cons hd rest ih =>
    obtain ⟨caller, ces⟩ := hd
    intro st h
    obtain ⟨ci, st1, hgn⟩ : ∃ ci st1, get_nodeidx st caller = (ci, st1) := ⟨_, _, rfl⟩
    have hedges1 : st1.graph.edges = st.graph.edges := by
      have := get_nodeidx_edges st caller
      rw [hgn] at this
      exact this
    rw [buildGraph_cons caller ces rest hgn]
    apply ih
    apply addCallEdges_ids
    rw [hedges1]
    exact h

lemma buildGraph_ids_nodup (cdb : List (Ident × List DepEdge)) :
    ((buildGraph cdb emptyBuild).graph.edges.map (fun e => e.id)).Nodup := by
  rw [buildGraph_ids cdb emptyBuild (by rfl)]
  exact List.nodup_range _

/-! ## Entry-point selection and `without_type_param` -/

lemma without_type_param_none_iff : ∀ s : Ident, without_type_param s = none ↔ '<' ∉ s := by
  intro s
  induction s with
  | nil => simp [without_type_param]
  | cons c rest ih =>
    by_cases hc : c = '<'
    · subst hc
      simp [without_type_param]
    · unfold without_type_param
      rw [if_neg hc]
      constructor
      · intro h
        rcases ho : without_type_param rest with _ | s2
        · intro hmem
          rcases List.mem_cons.mp hmem with heq | hmem2
          · exact hc heq.symm
          · exact (ih.mp ho) hmem2
        · rw [ho] at h
          simp at h
      · intro h
        rw [ih.mpr (fun hmem => h (List.mem_cons_of_mem _ hmem))]
        rfl

lemma without_type_param_isSome_iff (s : Ident) :
    (without_type_param s).isSome = true ↔ '<' ∈ s := by
  rcases h : without_type_param s with _ | s2
  · simp only [Option.isSome_none]
    constructor
    · intro hc; exact Bool.noConfusion hc
    · intro hmem; exact absurd hmem ((without_type_param_none_iff s).mp h)
  · simp only [Option.isSome_some, true_iff]
    by_contra hmem
    rw [(without_type_param_none_iff s).mpr hmem] at h
    exact Option.noConfusion h

lemma full_callee_name_decomp (e : DepEdge) :
    e.full_callee_name = e.callee_def ++ '<' :: (commaJoin e.type_params ++ ['>']) := by
  unfold DepEdge.full_callee_name
  simp

lemma full_callee_name_has_lt (e : DepEdge) : '<' ∈ e.full_callee_name := by
  rw [full_callee_name_decomp]
  exact List.mem_append.mpr (Or.inr (List.mem_cons_self _ _))

lemma is_entry_point_at_true_iff (mdb : List (Ident × MarkedItem)) (w : Ident) :
    is_entry_point_at mdb w = some true ↔
      ∃ s, without_type_param w = some s ∧
        ∃ mi, slookup mdb s = some mi ∧ mi.marking.is_entry_point = true := by
  unfold is_entry_point_at
  cases hw : without_type_param w with
  | none =>
    simp only [Option.map_none']
    constructor
    · intro h; exact Option.noConfusion h
    · intro ⟨s, hs, _⟩; exact Option.noConfusion hs
  | some s =>
    simp only [Option.map_some', Option.some.injEq]
    constructor
    · intro h
      cases hm : slookup mdb s with
      | none => rw [hm] at h; exact Bool.noConfusion h
      | some mi =>
        rw [hm] at h
        exact ⟨s, rfl, mi, hm, h⟩
    · intro ⟨s2, hs2, mi, hmi, hep⟩
      subst hs2
      rw [hmi]
      exact hep

lemma selectEntries_iff (mdb : List (Ident × MarkedItem)) :
    ∀ (ns : List (Nat × Ident)) (es : List Nat), selectEntries mdb ns = some es →
      ∀ i, i ∈ es ↔ ∃ w, (i, w) ∈ ns ∧ is_entry_point_at mdb w = some true := by
  intro ns
  induction ns with
  | nil =>
    intro es h i
    unfold selectEntries at h
    rw [← Option.some.inj h]
    simp
  | cons hd rest ih =>
    obtain ⟨j, w⟩ := hd
    intro es h i
    unfold selectEntries at h
    cases hE : is_entry_point_at mdb w with
    | none => rw [hE] at h; exact Option.noConfusion h
    | some b =>
      rw [hE] at h
      simp only at h
      cases hR : selectEntries mdb rest with
      | none => rw [hR] at h; exact Option.noConfusion h
      | some es2 =>
        rw [hR] at h
        simp only [Option.some.injEq] at h
        cases b with
        | true =>
          rw [if_pos rfl] at h
          subst h
          constructor
          · intro hmem
            rcases List.mem_cons.mp hmem with rfl | hmem2
            · exact ⟨w, List.mem_cons_self _ _, hE⟩
            · obtain ⟨w2, hw2, hE2⟩ := (ih es2 hR i).mp hmem2
              exact ⟨w2, List.mem_cons_of_mem _ hw2, hE2⟩
          · intro hex
            obtain ⟨w2, hw2, hE2⟩ := hex
            rcases List.mem_cons.mp hw2 with heq | hmem2
            · injection heq with h1 h2
              exact List.mem_cons.mpr (Or.inl h1)
            · exact List.mem_cons.mpr (Or.inr ((ih es2 hR i).mpr ⟨w2, hmem2, hE2⟩))
        | false =>
          rw [if_neg (by simp)] at h
          subst h
          constructor
          · intro hmem
            obtain ⟨w2, hw2, hE2⟩ := (ih es2 hR i).mp hmem
            exact ⟨w2, List.mem_cons_of_mem _ hw2, hE2⟩
          · intro hex
            obtain ⟨w2, hw2, hE2⟩ := hex
            rcases List.mem_cons.mp hw2 with heq | hmem2
            · injection heq with h1 h2
              subst h2
              rw [hE2] at hE
              exact absurd (Option.some.inj hE) (by simp)
            · exact (ih es2 hR i).mpr ⟨w2, hmem2, hE2⟩

lemma selectEntries_none_of_bad (mdb : List (Ident × MarkedItem)) :
    ∀ (ns : List (Nat × Ident)) (i : Nat) (w : Ident),
      (i, w) ∈ ns → '<' ∉ w → selectEntries mdb ns = none := by
  intro ns
  induction ns with
  | nil => intro i w hmem _; simp at hmem
  | cons hd rest ih =>
    obtain ⟨j, w2⟩ := hd
    intro i w hmem hlt
    rcases List.mem_cons.mp hmem with heq | hmem2
    · injection heq with h1 h2
      subst h2
      unfold selectEntries
      unfold is_entry_point_at
      rw [(without_type_param_none_iff w).mpr hlt]
      rfl
    · unfold selectEntries
      cases hE : is_entry_point_at mdb w2 with
      | none => rfl
      | some b =>
        simp only
        rw [ih i w hmem2 hlt]

/-- `get_depgraph`, with its intermediate stages spelled out. -/
lemma get_depgraph_eq (mdb : List (Ident × MarkedItem)) (cdb : List (Ident × List DepEdge)) :
    get_depgraph mdb cdb =
      (selectEntries mdb (removeNodes
        (removeEdges (buildGraph cdb emptyBuild).graph
          (pruneLoop (buildGraph cdb emptyBuild).graph
            ((buildGraph cdb emptyBuild).graph.nodes.length + 2) ∅
            (buildGraph cdb emptyBuild).lang_items
            (buildGraph cdb emptyBuild).lang_items).1)
        (pruneLoop (buildGraph cdb emptyBuild).graph
          ((buildGraph cdb emptyBuild).graph.nodes.length + 2) ∅
          (buildGraph cdb emptyBuild).lang_items
          (buildGraph cdb emptyBuild).lang_items).2).nodes).map
      (fun entries => (removeNodes
        (removeEdges (buildGraph cdb emptyBuild).graph
          (pruneLoop (buildGraph cdb emptyBuild).graph
            ((buildGraph cdb emptyBuild).graph.nodes.length + 2) ∅
            (buildGraph cdb emptyBuild).lang_items
            (buildGraph cdb emptyBuild).lang_items).1)
        (pruneLoop (buildGraph cdb emptyBuild).graph
          ((buildGraph cdb emptyBuild).graph.nodes.length + 2) ∅
          (buildGraph cdb emptyBuild).lang_items
          (buildGraph cdb emptyBuild).lang_items).2, entries)) := rfl

/-! ## Concrete stores used by witnesses and counterexamples -/

def loc0 : SourceLocation := ⟨['f'], 1⟩

def mkEdge (callee : Ident) (lang : Bool) : DepEdge :=
  { callee_def := callee, is_lang_item := lang, type_params := [], src_loc := loc0 }

def mkMark (ra au : Option Ident) (ep : Bool) : MarkedItem :=
  { marking := { require_audit := ra, audited := au, is_entry_point := ep }, src_loc := loc0 }

/-- A generic `slookup` after a `supdate` finds the new value. -/
lemma slookup_supdate {α : Type} (m : List (Ident × α)) (k : Ident) (v : α) :
    slookup (supdate m k v) k = some v := by
  unfold supdate
  cases h : slookup m k with
  | none => exact slookup_append_single h v
  | some old => exact slookup_replace_of_some h v

/-! ## C9 -/

def exC9store : PersistentSummaryStore Nat :=
  { ser := fun n => [n], de := fun l => l.head?,
    persist_store := [(['k'], [7])], inmem_store := [] }

/-- C9 counterexample: the spec-modelled `get_spec` (return the cached value,
fall back to durable storage on a miss, populate the cache) populates the
in-memory cache on this store, but the source `get` reads only the durable
store and — taking the store immutably — leaves the cache untouched and empty.
The claim's "get ... populates the in-memory cache" is therefore false of the
code. -/
theorem C9_counterexample :
    PersistentSummaryStore.get exC9store ['k'] = some (some 7) ∧
    slookup exC9store.inmem_store ['k'] = none ∧
    (PersistentSummaryStore.get_spec exC9store ['k']).2.inmem_store ≠
      exC9store.inmem_store := by
  refine ⟨rfl, rfl, ?_⟩
  decide

/-- C9 (amended): after `insert(k, v)`, `get(k)` returns `Some` of the
deserialization of the stored serialization of `v`, overwriting any prior
value under `k`; `insert` returns the cache's previous value; but `get` reads
exclusively from durable storage — it neither consults nor populates the
in-memory cache (the cache is write-only through this interface). -/
theorem C9_store_roundtrip {V : Type} (s : PersistentSummaryStore V) (k : Ident)
    (v : V) (hser : s.de (s.ser v) = some v) :
    ((s.insert k v).2.get k = some (some v)) ∧
    ((s.insert k v).1 = slookup s.inmem_store k) ∧
    (∀ cache : List (Ident × V),
      PersistentSummaryStore.get { s with inmem_store := cache } k = s.get k) := by
  refine ⟨?_, rfl, fun cache => rfl⟩
  show (match slookup (supdate s.persist_store k (s.ser v)) k with
        | none => some none
        | some bin => (s.de bin).map some) = some (some v)
  rw [slookup_supdate]
  simp [hser]

theorem C9_store_roundtrip_witness :
    (exC9store.de (exC9store.ser 5) = some 5) ∧
    ((exC9store.insert ['q'] 5).2.get ['q'] = some (some 5)) := by
  refine ⟨rfl, ?_⟩
  exact (C9_store_roundtrip exC9store ['q'] 5 rfl).1

/-! ## C10 -/

def exC10cdb : List (Ident × List DepEdge) := [(['f','o','o'], [mkEdge ['c'] true])]

/-- C10 counterexample: the caller key `"foo"` in the call-edge store contains
no `'<'`, yet `audit` (and `get_depgraph`) complete without a panic: the
caller is a lang-item root, so its node is pruned before the entry-point
filter ever applies `without_type_param` to it.  The claim's "caller keys read
from the call-edge store must contain `'<'` for `audit` and `get_depgraph` to
be panic-free" is therefore false as a necessity. -/
theorem C10_counterexample :
    ('<' ∉ (['f','o','o'] : Ident)) ∧
    (['f','o','o'], [mkEdge ['c'] true]) ∈ exC10cdb ∧
    audit [] exC10cdb = some { audited := [], unaudited := [] } := by
  refine ⟨by decide, by decide, by decide⟩

/-- C10 (amended): `without_type_param` is defined exactly on identifiers
containing `'<'` and panics on the rest; identifiers produced by
`DepEdge::full_callee_name` always carry a trailing `'<'...'>'` suffix and so
satisfy the precondition; and a caller key without `'<'` whose node survives
pruning makes `get_depgraph` panic — the necessity claim holds only for
surviving nodes, since a pruned `'<'`-free caller (see the counterexample)
never reaches the entry-point filter. -/
theorem C10_strip_precondition :
    (∀ s : Ident, without_type_param s = none ↔ '<' ∉ s) ∧
    (∀ e : DepEdge,
      e.full_callee_name = e.callee_def ++ '<' :: (commaJoin e.type_params ++ ['>']) ∧
      (without_type_param e.full_callee_name).isSome = true) ∧
    (∀ (mdb : List (Ident × MarkedItem)) (cdb : List (Ident × List DepEdge))
       (i : Nat) (w : Ident),
      (i, w) ∈ (removeNodes
        (removeEdges (buildGraph cdb emptyBuild).graph
          (pruneLoop (buildGraph cdb emptyBuild).graph
            ((buildGraph cdb emptyBuild).graph.nodes.length + 2) ∅
            (buildGraph cdb emptyBuild).lang_items
            (buildGraph cdb emptyBuild).lang_items).1)
        (pruneLoop (buildGraph cdb emptyBuild).graph
          ((buildGraph cdb emptyBuild).graph.nodes.length + 2) ∅
          (buildGraph cdb emptyBuild).lang_items
          (buildGraph cdb emptyBuild).lang_items).2).nodes →
      '<' ∉ w → get_depgraph mdb cdb = none) := by
  refine ⟨without_type_param_none_iff, ?_, ?_⟩
  · intro e
    refine ⟨full_callee_name_decomp e, ?_⟩
    rw [without_type_param_isSome_iff]
    exact full_callee_name_has_lt e
  · intro mdb cdb i w hmem hlt
    rw [get_depgraph_eq, selectEntries_none_of_bad mdb _ i w hmem hlt]
    rfl

def exC10wcdb : List (Ident × List DepEdge) := [(['b','a','d'], [mkEdge ['c'] false])]

theorem C10_strip_precondition_witness :
    (without_type_param (['n','o','l','t'] : Ident) = none) ∧
    ((mkEdge ['c'] false).full_callee_name = ['c', '<', '>']) ∧
    ((0, (['b','a','d'] : Ident)) ∈ (removeNodes
        (removeEdges (buildGraph exC10wcdb emptyBuild).graph
          (pruneLoop (buildGraph exC10wcdb emptyBuild).graph
            ((buildGraph exC10wcdb emptyBuild).graph.nodes.length + 2) ∅
            (buildGraph exC10wcdb emptyBuild).lang_items
            (buildGraph exC10wcdb emptyBuild).lang_items).1)
        (pruneLoop (buildGraph exC10wcdb emptyBuild).graph
          ((buildGraph exC10wcdb emptyBuild).graph.nodes.length + 2) ∅
          (buildGraph exC10wcdb emptyBuild).lang_items
          (buildGraph exC10wcdb emptyBuild).lang_items).2).nodes) ∧
    get_depgraph [] exC10wcdb = none := by
  refine ⟨?_, by decide, by decide, ?_⟩
  · exact (C10_strip_precondition.1 ['n','o','l','t']).mpr (by decide)
  · exact C10_strip_precondition.2.2 [] exC10wcdb 0 ['b','a','d'] (by decide) (by decide)

/-! ## Inversion of a successful `get_depgraph` -/

lemma get_depgraph_some_inv {mdb : List (Ident × MarkedItem)}
    {cdb : List (Ident × List DepEdge)} {g : DepGraph} {entries : List Nat}
    (h : get_depgraph mdb cdb = some (g, entries)) :
    g = removeNodes
        (removeEdges (buildGraph cdb emptyBuild).graph
          (pruneLoop (buildGraph cdb emptyBuild).graph
            ((buildGraph cdb emptyBuild).graph.nodes.length + 2) ∅
            (buildGraph cdb emptyBuild).lang_items
            (buildGraph cdb emptyBuild).lang_items).1)
        (pruneLoop (buildGraph cdb emptyBuild).graph
          ((buildGraph cdb emptyBuild).graph.nodes.length + 2) ∅
          (buildGraph cdb emptyBuild).lang_items
          (buildGraph cdb emptyBuild).lang_items).2 ∧
    selectEntries mdb g.nodes = some entries := by
  rw [get_depgraph_eq] at h
  cases hsel : selectEntries mdb (removeNodes
      (removeEdges (buildGraph cdb emptyBuild).graph
        (pruneLoop (buildGraph cdb emptyBuild).graph
          ((buildGraph cdb emptyBuild).graph.nodes.length + 2) ∅
          (buildGraph cdb emptyBuild).lang_items
          (buildGraph cdb emptyBuild).lang_items).1)
      (pruneLoop (buildGraph cdb emptyBuild).graph
        ((buildGraph cdb emptyBuild).graph.nodes.length + 2) ∅
        (buildGraph cdb emptyBuild).lang_items
        (buildGraph cdb emptyBuild).lang_items).2).nodes with
  | none => rw [hsel] at h; exact Option.noConfusion h
  | some es =>
    rw [hsel] at h
    simp only [Option.map_some', Option.some.injEq, Prod.mk.injEq] at h
    obtain ⟨h1, h2⟩ := h
    subst h1
    subst h2
    exact ⟨rfl, hsel⟩

lemma get_depgraph_ids_nodup {mdb : List (Ident × MarkedItem)}
    {cdb : List (Ident × List DepEdge)} {g : DepGraph} {entries : List Nat}
    (h : get_depgraph mdb cdb = some (g, entries)) :
    (g.edges.map (fun e => e.id)).Nodup := by
  obtain ⟨hg, _⟩ := get_depgraph_some_inv h
  subst hg
  refine List.Nodup.sublist (List.Sublist.map _ ?_) (buildGraph_ids_nodup cdb)
  exact List.Sublist.trans (List.filter_sublist _) (List.filter_sublist _)

/-! ## C1 -/

def exC1cdb : List (Ident × List DepEdge) :=
  [(['M','<','>'], [mkEdge ['A'] false, mkEdge ['C'] false]),
   (['A','<','>'], [mkEdge ['B'] false]),
   (['B','<','>'], [mkEdge ['C'] false])]

def exC1mdb : List (Ident × MarkedItem) :=
  [(['M'], mkMark none none true),
   (['A'], mkMark none (some ['g']) false),
   (['C'], mkMark (some ['g']) none false)]

def exC1report : AuditReport :=
  { audited := [(['A','<','>'],
      [(['A','<','>'], loc0), (['B','<','>'], loc0), (['C','<','>'], loc0)])],
    unaudited := [[(['C','<','>'], loc0)]] }

/-- C1: auditor state does not leak across sibling branches.  (1) Every
successful `traverse` call returns with the active-auditor mapping restored
to exactly its incoming value (each group modified in step 2 is reset to its
prior value or removed).  (2) In the concrete scenario — entry `M` calls `A`
(audited for `g`) which calls `B` which calls `C` (requires audit for `g`),
and `M` also calls `C` directly — the direct sibling path is classified
unaudited even though `A` was an active auditor on the other branch. -/
theorem C1_auditor_scoping :
    (∀ (g : DepGraph) (db : List (Ident × MarkedItem)) (fuel : Nat) (cur : GEdge)
       (path : List GEdge) (st st1 : TravState),
       (st.auditor.map Prod.fst).Nodup →
       Taurus.traverse g db fuel cur path st = some st1 → st1.auditor = st.auditor) ∧
    audit exC1mdb exC1cdb = some exC1report :=
  ⟨fun _ _ fuel cur path st st1 hnd h => traverse_auditor fuel cur path st st1 hnd h,
   by decide⟩

def exC1graph : DepGraph :=
  { nodes := [(0, ['M','<','>']), (1, ['A','<','>']), (2, ['C','<','>']), (3, ['B','<','>'])],
    edges := [{ id := 0, source := 0, target := 1, weight := loc0 },
              { id := 1, source := 0, target := 2, weight := loc0 },
              { id := 2, source := 1, target := 3, weight := loc0 },
              { id := 3, source := 3, target := 2, weight := loc0 }] }

def exC1edge : GEdge := { id := 0, source := 0, target := 1, weight := loc0 }

def exC1res : TravState :=
  { auditor := [], visited := [3, 2],
    audited := [(['A','<','>'],
      [(['A','<','>'], loc0), (['B','<','>'], loc0), (['C','<','>'], loc0)])],
    unaudited := [], trace := [0, 2, 3] }

theorem C1_auditor_scoping_witness :
    Taurus.traverse exC1graph exC1mdb 6 exC1edge [exC1edge] initTrav = some exC1res ∧
    exC1res.auditor = initTrav.auditor :=
  ⟨by decide,
   C1_auditor_scoping.1 exC1graph exC1mdb 6 exC1edge [exC1edge] initTrav exC1res
     (by decide) (by decide)⟩

/-! ## C3 -/

/-- C3: violation cutoff.  When the target of the current edge requires audit
for a group with no active auditor (after the source's own marking was
applied), `traverse` appends the instantiated current path to the unaudited
report and returns without descending: the returned state differs from the
incoming one only by that single unaudited entry (and the ghost trace entry
for the current edge) — visited set, auditor map, and audited report are
untouched, so no descendant reachable only through this call contributes any
further report entry. -/
theorem C3_violation_cutoff (g : DepGraph) (db : List (Ident × MarkedItem))
    (fuel : Nat) (cur : GEdge) (path : List GEdge) (st st1 : TravState)
    (pn dn pk dk : Ident) (mi : MarkedItem) (meta : Ident)
    (hnd : (st.auditor.map Prod.fst).Nodup)
    (hw1 : nodeWeight g cur.source = some pn)
    (hw2 : nodeWeight g cur.target = some dn)
    (hp1 : without_type_param pn = some pk)
    (hp2 : without_type_param dn = some dk)
    (hm : slookup db dk = some mi)
    (hr : mi.marking.require_audit = some meta)
    (ha : slookup (applyAudited db cur.source pk st.auditor).2 meta = none)
    (h : Taurus.traverse g db fuel cur path st = some st1) :
    ∃ dp, instantiatePath path g = some dp ∧
      st1 = { st with unaudited := st.unaudited ++ [dp],
                      trace := st.trace ++ [cur.id] } := by
  cases fuel with
  | zero => exact Option.noConfusion h
  | succ n =>
    obtain ⟨pn2, dn2, pk2, dk2, st2, skip, st3, hw1i, hw2i, hp1i, hp2i, hc, hg, hst⟩ :=
      traverse_inv h
    rw [hw1] at hw1i
    have := Option.some.inj hw1i
    subst this
    rw [hw2] at hw2i
    have := Option.some.inj hw2i
    subst this
    rw [hp1] at hp1i
    have := Option.some.inj hp1i
    subst this
    rw [hp2] at hp2i
    have := Option.some.inj hp2i
    subst this
    cases hip : instantiatePath path g with
    | none =>
      exfalso
      unfold classifyTarget at hc
      rw [hm] at hc
      simp only [hr, hip] at hc
      exact Option.noConfusion hc
    | some dp =>
      rw [classifyTarget_unaudited path _ hm hr hip (by exact ha)] at hc
      simp only [Option.some.injEq, Prod.mk.injEq] at hc
      obtain ⟨hst2, hskip⟩ := hc
      subst hskip
      rw [if_pos rfl] at hg
      refine ⟨dp, rfl, ?_⟩
      rw [hst]
      rw [← Option.some.inj hg]
      rw [← hst2]
      have hres : restoreAudited (applyAudited db cur.source pk st.auditor).1
          (applyAudited db cur.source pk st.auditor).2 = st.auditor :=
        applyAudited_restore hnd
      show ({ auditor := restoreAudited (applyAudited db cur.source pk st.auditor).1
                (applyAudited db cur.source pk st.auditor).2,
              visited := st.visited, audited := st.audited,
              unaudited := st.unaudited ++ [dp],
              trace := st.trace ++ [cur.id] } : TravState) = _
      rw [hres]

def exC3cdb : List (Ident × List DepEdge) := [(['M','<','>'], [mkEdge ['S'] false])]

def exC3mdb : List (Ident × MarkedItem) :=
  [(['M'], mkMark none none true), (['S'], mkMark (some ['g']) none false)]

def exC3graph : DepGraph :=
  { nodes := [(0, ['M','<','>']), (1, ['S','<','>'])],
    edges := [{ id := 0, source := 0, target := 1, weight := loc0 }] }

def exC3edge : GEdge := { id := 0, source := 0, target := 1, weight := loc0 }

def exC3res : TravState :=
  { auditor := [], visited := [], audited := [],
    unaudited := [[(['S','<','>'], loc0)]], trace := [0] }

theorem C3_violation_cutoff_witness :
    Taurus.traverse exC3graph exC3mdb 3 exC3edge [exC3edge] initTrav = some exC3res ∧
    (∃ dp, instantiatePath [exC3edge] exC3graph = some dp ∧
      exC3res = { initTrav with unaudited := initTrav.unaudited ++ [dp],
                                trace := initTrav.trace ++ [exC3edge.id] }) :=
  ⟨by decide,
   C3_violation_cutoff exC3graph exC3mdb 3 exC3edge [exC3edge] initTrav exC3res
     ['M','<','>'] ['S','<','>'] ['M'] ['S'] (mkMark (some ['g']) none false) ['g']
     (by decide) (by decide) (by decide) (by decide) (by decide) (by decide)
     (by decide) (by decide) (by decide)⟩

/-! ## C4 -/

/-- When the target requires audit and the auditor map — after the edge
source's marking was applied in step 2 — holds an escort for the group, the
escort's name heads the audited-report growth of the call. -/
lemma traverse_audited_append {g : DepGraph} {db : List (Ident × MarkedItem)}
    {fuel : Nat} {cur : GEdge} {path : List GEdge} {st st1 : TravState}
    {pn dn pk dk : Ident} {mi : MarkedItem} {meta : Ident} {aidx : Nat} {anm : Ident}
    (hw1 : nodeWeight g cur.source = some pn)
    (hw2 : nodeWeight g cur.target = some dn)
    (hp1 : without_type_param pn = some pk)
    (hp2 : without_type_param dn = some dk)
    (hm : slookup db dk = some mi)
    (hr : mi.marking.require_audit = some meta)
    (ha : slookup (applyAudited db cur.source pk st.auditor).2 meta = some aidx)
    (hwa : nodeWeight g aidx = some anm)
    (h : Taurus.traverse g db fuel cur path st = some st1) :
    ∃ dp rest, instantiatePath path g = some dp ∧
      st1.audited = st.audited ++ (anm, dp) :: rest := by
  cases fuel with
  | zero => exact Option.noConfusion h
  | succ n =>
    obtain ⟨pn2, dn2, pk2, dk2, st2, skip, st3, hw1i, hw2i, hp1i, hp2i, hc, hg, hst⟩ :=
      traverse_inv h
    rw [hw1] at hw1i
    have := Option.some.inj hw1i
    subst this
    rw [hw2] at hw2i
    have := Option.some.inj hw2i
    subst this
    rw [hp1] at hp1i
    have := Option.some.inj hp1i
    subst this
    rw [hp2] at hp2i
    have := Option.some.inj hp2i
    subst this
    cases hip : instantiatePath path g with
    | none =>
      exfalso
      unfold classifyTarget at hc
      rw [hm] at hc
      simp only [hr, hip] at hc
      exact Option.noConfusion hc
    | some dp =>
      rw [classifyTarget_audited path _ hm hr hip (by exact ha) hwa] at hc
      simp only [Option.some.injEq, Prod.mk.injEq] at hc
      obtain ⟨hst2, hskip⟩ := hc
      subst hskip
      rw [if_neg (by simp)] at hg
      obtain ⟨gda, gdu, gdt, hga, _, _, _⟩ :=
        goChildren_transplant (fun e p s s1 hh => traverse_transplant n e p s s1 hh)
          _ path st2 st3 hg
      refine ⟨dp, gda, rfl, ?_⟩
      rw [hst]
      show st3.audited = _
      rw [hga, ← hst2]
      show ({ auditor := (applyAudited db cur.source pk st.auditor).2,
              visited := st.visited, audited := st.audited,
              unaudited := st.unaudited,
              trace := st.trace ++ [cur.id] } : TravState).audited
        ++ [(anm, dp)] ++ gda = _
      simp

/-- C4 (amended): a node marked both `audited(G)` and `requires_audit(G)` is
classified from the auditor map as it stands after step 2 applied the *edge
source's* marking — its own marking is never read for its own classification
on a non-self-loop edge.  (1) For a self-loop edge the source *is* the node
itself, so step 2 installs the node as active auditor before step 3 classifies
it: it is reported audited with itself as escort — its own marking does take
effect there.  (2) In general the escort recorded is whatever node the
post-step-2 auditor map holds for the group, a map built from the incoming
state and the source's marking only. -/
theorem C4_self_escort :
    (∀ (g : DepGraph) (db : List (Ident × MarkedItem)) (fuel : Nat) (cur : GEdge)
       (path : List GEdge) (st st1 : TravState) (nm k : Ident) (mi : MarkedItem)
       (G : Ident),
       cur.source = cur.target →
       nodeWeight g cur.target = some nm →
       without_type_param nm = some k →
       slookup db k = some mi →
       mi.marking.audited = some G →
       mi.marking.require_audit = some G →
       Taurus.traverse g db fuel cur path st = some st1 →
       ∃ dp rest, instantiatePath path g = some dp ∧
         st1.audited = st.audited ++ (nm, dp) :: rest) ∧
    (∀ (g : DepGraph) (db : List (Ident × MarkedItem)) (fuel : Nat) (cur : GEdge)
       (path : List GEdge) (st st1 : TravState) (pn dn pk dk : Ident)
       (mi : MarkedItem) (meta : Ident) (aidx : Nat) (anm : Ident),
       nodeWeight g cur.source = some pn →
       nodeWeight g cur.target = some dn →
       without_type_param pn = some pk →
       without_type_param dn = some dk →
       slookup db dk = some mi →
       mi.marking.require_audit = some meta →
       slookup (applyAudited db cur.source pk st.auditor).2 meta = some aidx →
       nodeWeight g aidx = some anm →
       Taurus.traverse g db fuel cur path st = some st1 →
       ∃ dp rest, instantiatePath path g = some dp ∧
         st1.audited = st.audited ++ (anm, dp) :: rest) := by
  constructor
  · intro g db fuel cur path st st1 nm k mi G hloop hw2 hp2 hm hau hreq h
    have hw1 : nodeWeight g cur.source = some nm := by rw [hloop]; exact hw2
    have ha : slookup (applyAudited db cur.source k st.auditor).2 G = some cur.source := by
      rw [applyAudited_au_some st.auditor hm hau]
      exact ainsertRet_lookup st.auditor G cur.source
    exact traverse_audited_append hw1 hw2 hp2 hp2 hm hreq ha hw1 h
  · intro g db fuel cur path st st1 pn dn pk dk mi meta aidx anm hw1 hw2 hp1 hp2 hm hr ha hwa h
    exact traverse_audited_append hw1 hw2 hp1 hp2 hm hr ha hwa h

def exC4cdb : List (Ident × List DepEdge) :=
  [(['M','<','>'], [mkEdge ['D'] false]),
   (['D','<','>'], [mkEdge ['D'] false])]

def exC4mdb : List (Ident × MarkedItem) :=
  [(['M'], mkMark none (some ['g']) true),
   (['D'], mkMark (some ['g']) (some ['g']) false)]

def exC4report : AuditReport :=
  { audited := [(['M','<','>'], [(['D','<','>'], loc0)]),
                (['D','<','>'], [(['D','<','>'], loc0), (['D','<','>'], loc0)])],
    unaudited := [] }

/-- C4 counterexample: node `D` is marked both `audited(g)` and
`requires_audit(g)` and carries a self-loop edge; `M` (audited for `g`, an
entry point) calls `D`.  Before entering `D` through the self-loop the active
auditor for `g` was `M`, so the claim — classification "never according to
the node's own audited marking", including self-loop edges — predicts the
escort `M<>`; the code records `D<>` as its own escort for the self-loop
path: step 2 applies the edge source's (= the node's own) marking before
step 3 classifies. -/
theorem C4_counterexample :
    audit exC4mdb exC4cdb = some exC4report ∧
    exC4report.audited.map Prod.fst = [['M','<','>'], ['D','<','>']] ∧
    (['D','<','>'] : Ident) ≠ ['M','<','>'] :=
  ⟨by decide, by decide, by decide⟩

def exC4graph : DepGraph :=
  { nodes := [(0, ['M','<','>']), (1, ['D','<','>'])],
    edges := [{ id := 0, source := 0, target := 1, weight := loc0 },
              { id := 1, source := 1, target := 1, weight := loc0 }] }

def exC4loop : GEdge := { id := 1, source := 1, target := 1, weight := loc0 }

def exC4st : TravState :=
  { auditor := [(['g'], 0)], visited := [1], audited := [], unaudited := [], trace := [] }

def exC4res : TravState :=
  { auditor := [(['g'], 0)], visited := [1],
    audited := [(['D','<','>'], [(['D','<','>'], loc0)])],
    unaudited := [], trace := [1] }

theorem C4_self_escort_witness :
    Taurus.traverse exC4graph exC4mdb 4 exC4loop [exC4loop] exC4st = some exC4res ∧
    (∃ dp rest, instantiatePath [exC4loop] exC4graph = some dp ∧
      exC4res.audited = exC4st.audited ++ (['D','<','>'], dp) :: rest) :=
  ⟨by decide,
   C4_self_escort.1 exC4graph exC4mdb 4 exC4loop [exC4loop] exC4st exC4res
     ['D','<','>'] ['D'] (mkMark (some ['g']) (some ['g']) false) ['g']
     (by decide) (by decide) (by decide) (by decide) (by decide) (by decide)
     (by decide)⟩

/-! ## C5 -/

def exC5cdb : List (Ident × List DepEdge) :=
  [(['E','<','>'], [mkEdge ['A'] false]),
   (['A','<','>'], [mkEdge ['E'] false])]

def exC5mdb : List (Ident × MarkedItem) := [(['E'], mkMark none none true)]

def exC5graph : DepGraph :=
  { nodes := [(0, ['E','<','>']), (1, ['A','<','>'])],
    edges := [{ id := 0, source := 0, target := 1, weight := loc0 },
              { id := 1, source := 1, target := 0, weight := loc0 }] }

def exC5res : TravState :=
  { auditor := [], visited := [0, 1], audited := [], unaudited := [], trace := [0, 1, 0] }

/-- C5 counterexample: on the cyclic store `E → A → E` with single entry
point `E`, the run of `audit`'s entry loop passes edge 0 (`E → A`) to
`traverse` twice — once as the entry's own out-edge (entry edges are neither
checked against nor inserted into the visited set) and once when the cycle
returns to `E`.  The ghost trace, which logs precisely the edges passed to
`traverse` in call order, is `[0, 1, 0]`.  This refutes "every edge entering
`traverse` is first inserted into it, and so each edge of the dependency
graph is passed to `traverse` at most once in the entire run"; the visited
set is moreover created afresh for every entry point (`audit`, line 201),
not shared across the run. -/
theorem C5_counterexample :
    get_depgraph exC5mdb exC5cdb = some (exC5graph, [0]) ∧
    auditEntries exC5graph exC5mdb (exC5graph.edges.length + 2) [0] initTrav =
      some exC5res ∧
    exC5res.trace = [0, 1, 0] ∧ exC5res.trace.count 0 = 2 :=
  ⟨by decide, by decide, by decide, by decide⟩

/-- C5 (amended): the visited-edge set is created afresh for each entry
point, and an entry's own out-edges enter `traverse` without a visited check;
within one entry point's processing every recursive descent inserts its edge
before recursing, so each edge enters `traverse` at most twice per entry
point — at most once among the entry's own out-edges and at most once
through all recursive descents together — and the work stays bounded, so
traversal terminates on cyclic graphs. -/
theorem C5_per_entry_bound (mdb : List (Ident × MarkedItem))
    (cdb : List (Ident × List DepEdge)) (g : DepGraph) (entries : List Nat)
    (h : get_depgraph mdb cdb = some (g, entries)) (fuel n : Nat)
    (st st1 : TravState) (h2 : auditEntry g mdb fuel n st = some st1) :
    ∃ dt, st1.trace = st.trace ++ dt ∧ ∀ x, dt.count x ≤ 2 :=
  auditEntry_count (get_depgraph_ids_nodup h) h2

theorem C5_per_entry_bound_witness :
    auditEntry exC5graph exC5mdb 4 0 initTrav = some exC5res ∧
    (∃ dt, exC5res.trace = initTrav.trace ++ dt ∧ ∀ x, dt.count x ≤ 2) :=
  ⟨by decide,
   C5_per_entry_bound exC5mdb exC5cdb exC5graph [0] (by decide) 4 0 initTrav exC5res
     (by decide)⟩

/-! ## C2 -/

def exC2cdb : List (Ident × List DepEdge) :=
  [(['P','<','>'], [mkEdge ['N'] false]),
   (['N','<','>'], [mkEdge ['X'] true])]

/-- C2 counterexample: in the store where clean `P` calls `N` and `N` makes a
lang-item call to `X`, node `N` (index 1) is itself a lang-item root, so it is
placed in the pruning set unconditionally and removed — although its incoming
edge from `P` (edge 0) is never marked to-prune and its caller `P` (index 0)
is never tainted.  The claim "N survives pruning" fails when N is itself a
lang-item root. -/
theorem C2_counterexample :
    ((1, (['N','<','>'] : Ident)) ∈ (buildGraph exC2cdb emptyBuild).graph.nodes) ∧
    ({ id := 0, source := 0, target := 1, weight := loc0 } : GEdge) ∈
      (buildGraph exC2cdb emptyBuild).graph.edges ∧
    (0 : Nat) ∉ (pruneLoop (buildGraph exC2cdb emptyBuild).graph
      ((buildGraph exC2cdb emptyBuild).graph.nodes.length + 2) ∅
      (buildGraph exC2cdb emptyBuild).lang_items
      (buildGraph exC2cdb emptyBuild).lang_items).1 ∧
    (0 : Nat) ∉ (pruneLoop (buildGraph exC2cdb emptyBuild).graph
      ((buildGraph exC2cdb emptyBuild).graph.nodes.length + 2) ∅
      (buildGraph exC2cdb emptyBuild).lang_items
      (buildGraph exC2cdb emptyBuild).lang_items).2 ∧
    get_depgraph [] exC2cdb = some ({ nodes := [(0, ['P','<','>'])], edges := [] }, []) ∧
    ((1, (['N','<','>'] : Ident)) ∉
      ({ nodes := [(0, ['P','<','>'])], edges := [] } : DepGraph).nodes) :=
  ⟨by decide, by decide, by decide, by decide, by decide, by decide⟩

/-- C2 (amended): pruning unanimity holds for every node that is not itself a
lang-item root: if node `N` of the built graph has an incoming edge `e` whose
caller is never tainted (`e.source` is not in the final pruning set) and `N`
is not a lang-item root, then `e` is never marked to-prune, `N` never joins
the pruning set, and `N` is still a node of the graph `get_depgraph` returns.
Lang-item roots themselves are removed unconditionally (see the
counterexample). -/
theorem C2_pruning_unanimity (cdb : List (Ident × List DepEdge)) (N : Nat)
    (w : Ident) (e : GEdge) (g : DepGraph) (lang eP nP : Finset Nat)
    (hgr : g = (buildGraph cdb emptyBuild).graph)
    (hlang : lang = (buildGraph cdb emptyBuild).lang_items)
    (hpr : (eP, nP) = pruneLoop g (g.nodes.length + 2) ∅ lang lang)
    (hn : (N, w) ∈ g.nodes) (he : e ∈ g.edges) (ht : e.target = N)
    (hsrc : e.source ∉ nP) (hNl : N ∉ lang) :
    e.id ∉ eP ∧ N ∉ nP ∧
    (N, w) ∈ (removeNodes (removeEdges g eP) nP).nodes ∧
    (∀ (mdb : List (Ident × MarkedItem)) (g2 : DepGraph) (entries : List Nat),
      get_depgraph mdb cdb = some (g2, entries) → (N, w) ∈ g2.nodes) := by
  subst hgr
  subst hlang
  have heP : eP = (pruneLoop (buildGraph cdb emptyBuild).graph
      ((buildGraph cdb emptyBuild).graph.nodes.length + 2) ∅
      (buildGraph cdb emptyBuild).lang_items
      (buildGraph cdb emptyBuild).lang_items).1 := congrArg Prod.fst hpr
  have hnP : nP = (pruneLoop (buildGraph cdb emptyBuild).graph
      ((buildGraph cdb emptyBuild).graph.nodes.length + 2) ∅
      (buildGraph cdb emptyBuild).lang_items
      (buildGraph cdb emptyBuild).lang_items).2 := congrArg Prod.snd hpr
  subst heP
  subst hnP
  have hids := buildGraph_ids_nodup cdb
  have hNnot : N ∉ (pruneLoop (buildGraph cdb emptyBuild).graph
      ((buildGraph cdb emptyBuild).graph.nodes.length + 2) ∅
      (buildGraph cdb emptyBuild).lang_items
      (buildGraph cdb emptyBuild).lang_items).2 :=
    pruneLoop_not_pruned hids he ht _ ∅ _ _ (Finset.Subset.refl _) hNl
      (Finset.not_mem_empty _) hsrc
  have heNot : e.id ∉ (pruneLoop (buildGraph cdb emptyBuild).graph
      ((buildGraph cdb emptyBuild).graph.nodes.length + 2) ∅
      (buildGraph cdb emptyBuild).lang_items
      (buildGraph cdb emptyBuild).lang_items).1 := by
    intro hcon
    exact hsrc (pruneLoop_edges_sources hids _ ∅ _ _ (Finset.Subset.refl _)
      (fun e2 _ h2 => absurd h2 (Finset.not_mem_empty _)) e he hcon)
  have hsurv : (N, w) ∈ (removeNodes (removeEdges (buildGraph cdb emptyBuild).graph
      (pruneLoop (buildGraph cdb emptyBuild).graph
        ((buildGraph cdb emptyBuild).graph.nodes.length + 2) ∅
        (buildGraph cdb emptyBuild).lang_items
        (buildGraph cdb emptyBuild).lang_items).1)
      (pruneLoop (buildGraph cdb emptyBuild).graph
        ((buildGraph cdb emptyBuild).graph.nodes.length + 2) ∅
        (buildGraph cdb emptyBuild).lang_items
        (buildGraph cdb emptyBuild).lang_items).2).nodes := by
    refine List.mem_filter.mpr ⟨?_, ?_⟩
    · exact hn
    · exact decide_eq_true hNnot
  refine ⟨heNot, hNnot, hsurv, ?_⟩
  intro mdb g2 entries hdg
  obtain ⟨hg2, _⟩ := get_depgraph_some_inv hdg
  rw [hg2]
  exact hsurv

def exC2wcdb : List (Ident × List DepEdge) := [(['P','<','>'], [mkEdge ['N'] false])]

theorem C2_pruning_unanimity_witness :
    ((1, (['N','<','>'] : Ident)) ∈ (buildGraph exC2wcdb emptyBuild).graph.nodes) ∧
    ((1, (['N','<','>'] : Ident)) ∈
      (removeNodes (removeEdges (buildGraph exC2wcdb emptyBuild).graph
        (pruneLoop (buildGraph exC2wcdb emptyBuild).graph
          ((buildGraph exC2wcdb emptyBuild).graph.nodes.length + 2) ∅
          (buildGraph exC2wcdb emptyBuild).lang_items
          (buildGraph exC2wcdb emptyBuild).lang_items).1)
        (pruneLoop (buildGraph exC2wcdb emptyBuild).graph
          ((buildGraph exC2wcdb emptyBuild).graph.nodes.length + 2) ∅
          (buildGraph exC2wcdb emptyBuild).lang_items
          (buildGraph exC2wcdb emptyBuild).lang_items).2).nodes) :=
  ⟨by decide,
   (C2_pruning_unanimity exC2wcdb 1 ['N','<','>']
     { id := 0, source := 0, target := 1, weight := loc0 }
     (buildGraph exC2wcdb emptyBuild).graph
     (buildGraph exC2wcdb emptyBuild).lang_items
     (pruneLoop (buildGraph exC2wcdb emptyBuild).graph
       ((buildGraph exC2wcdb emptyBuild).graph.nodes.length + 2) ∅
       (buildGraph exC2wcdb emptyBuild).lang_items
       (buildGraph exC2wcdb emptyBuild).lang_items).1
     (pruneLoop (buildGraph exC2wcdb emptyBuild).graph
       ((buildGraph exC2wcdb emptyBuild).graph.nodes.length + 2) ∅
       (buildGraph exC2wcdb emptyBuild).lang_items
       (buildGraph exC2wcdb emptyBuild).lang_items).2
     rfl rfl rfl (by decide) (by decide) (by decide) (by decide) (by decide)).2.2.1⟩

/-! ## C6 -/

/-- A nonempty call path in `g` ending at node `N`: consecutive edges of the
graph, each edge's target the next edge's source. -/
def IsCallPathTo (g : DepGraph) (es : List GEdge) (N : Nat) : Prop :=
  (∀ e ∈ es, e ∈ g.edges) ∧
  List.Chain' (fun a b => a.target = b.source) es ∧
  ∃ last, es.getLast? = some last ∧ last.target = N

/-- C6: pruning totality.  If node `N` of the built graph has at least one
incoming edge and every call path ending at `N` originates at a lang-item
root, then `N` joins the pruning set and is removed from the returned graph
together with every edge incident to it. -/
theorem C6_pruning_totality (cdb : List (Ident × List DepEdge)) (N : Nat)
    (g : DepGraph) (lang : Finset Nat)
    (hgr : g = (buildGraph cdb emptyBuild).graph)
    (hlang : lang = (buildGraph cdb emptyBuild).lang_items)
    (hin : ∃ e, e ∈ g.edges ∧ e.target = N)
    (hall : ∀ es, IsCallPathTo g es N →
      ∀ h0, es.head? = some h0 → h0.source ∈ lang) :
    N ∈ (pruneLoop g (g.nodes.length + 2) ∅ lang lang).2 ∧
    (∀ w, (N, w) ∉ (removeNodes
      (removeEdges g (pruneLoop g (g.nodes.length + 2) ∅ lang lang).1)
      (pruneLoop g (g.nodes.length + 2) ∅ lang lang).2).nodes) ∧
    (∀ e ∈ (removeNodes
      (removeEdges g (pruneLoop g (g.nodes.length + 2) ∅ lang lang).1)
      (pruneLoop g (g.nodes.length + 2) ∅ lang lang).2).edges,
      e.source ≠ N ∧ e.target ≠ N) := by
  have hpred : ∀ e ∈ g.edges, e.target = N → e.source ∈ lang := by
    intro e he ht
    refine hall [e] ⟨?_, List.chain'_singleton e, e, rfl, ht⟩ e rfl
    intro e2 he2
    rw [List.mem_singleton] at he2
    subst he2
    exact he
  have hNin : N ∈ (pruneLoop g (g.nodes.length + 2) ∅ lang lang).2 := by
    show N ∈ (pruneLoop g (Nat.succ (g.nodes.length + 1)) ∅ lang lang).2
    exact pruneLoop_prunes_first hin hpred
  refine ⟨hNin, ?_, ?_⟩
  · intro w hmem
    obtain ⟨_, hdec⟩ := List.mem_filter.mp hmem
    rw [decide_eq_true_eq] at hdec
    exact hdec hNin
  · intro e hmem
    obtain ⟨_, hdec⟩ := List.mem_filter.mp hmem
    rw [decide_eq_true_eq] at hdec
    constructor
    · intro hcon
      exact hdec.1 (hcon ▸ hNin)
    · intro hcon
      exact hdec.2 (hcon ▸ hNin)

def exC6cdb : List (Ident × List DepEdge) := [(['L','<','>'], [mkEdge ['h'] true])]

def exC6edge : GEdge := { id := 0, source := 0, target := 1, weight := loc0 }

theorem C6_pruning_totality_witness :
    (1 : Nat) ∈ (pruneLoop (buildGraph exC6cdb emptyBuild).graph
      ((buildGraph exC6cdb emptyBuild).graph.nodes.length + 2) ∅
      (buildGraph exC6cdb emptyBuild).lang_items
      (buildGraph exC6cdb emptyBuild).lang_items).2 ∧
    (∀ w, (1, w) ∉ (removeNodes
      (removeEdges (buildGraph exC6cdb emptyBuild).graph
        (pruneLoop (buildGraph exC6cdb emptyBuild).graph
          ((buildGraph exC6cdb emptyBuild).graph.nodes.length + 2) ∅
          (buildGraph exC6cdb emptyBuild).lang_items
          (buildGraph exC6cdb emptyBuild).lang_items).1)
      (pruneLoop (buildGraph exC6cdb emptyBuild).graph
        ((buildGraph exC6cdb emptyBuild).graph.nodes.length + 2) ∅
        (buildGraph exC6cdb emptyBuild).lang_items
        (buildGraph exC6cdb emptyBuild).lang_items).2).nodes) := by
  have hmain := C6_pruning_totality exC6cdb 1
    (buildGraph exC6cdb emptyBuild).graph
    (buildGraph exC6cdb emptyBuild).lang_items rfl rfl
    ⟨exC6edge, by decide, by decide⟩
    (by
      intro es hpath h0 hh0
      obtain ⟨hmem, _, _⟩ := hpath
      have hh0mem : h0 ∈ es := by
        cases es with
        | nil => exact Option.noConfusion hh0
        | cons e rest =>
          rw [show (e :: rest).head? = some e from rfl] at hh0
          rw [← Option.some.inj hh0]
          exact List.mem_cons_self e rest
      have hge : h0 ∈ (buildGraph exC6cdb emptyBuild).graph.edges := hmem h0 hh0mem
      rw [show (buildGraph exC6cdb emptyBuild).graph.edges = [exC6edge] from by decide] at hge
      rw [List.mem_singleton] at hge
      subst hge
      show exC6edge.source ∈ (buildGraph exC6cdb emptyBuild).lang_items
      decide)
  exact ⟨hmain.1, hmain.2.1⟩

/-! ## C7 -/

/-- C7: entry-point selection.  When `get_depgraph` succeeds, a node index is
in the returned entry-point set iff some surviving node carries it with a
weight whose identifier, stripped of the portion from the first `'<'` onward,
is found in the marking store with `is_entry_point = true`. -/
theorem C7_entry_selection (mdb : List (Ident × MarkedItem))
    (cdb : List (Ident × List DepEdge)) (g : DepGraph) (entries : List Nat)
    (h : get_depgraph mdb cdb = some (g, entries)) :
    ∀ i, i ∈ entries ↔ ∃ w, (i, w) ∈ g.nodes ∧
      ∃ s, without_type_param w = some s ∧
        ∃ mi, slookup mdb s = some mi ∧ mi.marking.is_entry_point = true := by
  obtain ⟨_, hsel⟩ := get_depgraph_some_inv h
  intro i
  rw [selectEntries_iff mdb g.nodes entries hsel i]
  exact exists_congr fun w => and_congr_right fun _ => is_entry_point_at_true_iff mdb w

def exC7cdb : List (Ident × List DepEdge) := [(['M','<','>'], [mkEdge ['Q'] false])]

def exC7mdb : List (Ident × MarkedItem) := [(['M'], mkMark none none true)]

def exC7graph : DepGraph :=
  { nodes := [(0, ['M','<','>']), (1, ['Q','<','>'])],
    edges := [{ id := 0, source := 0, target := 1, weight := loc0 }] }

theorem C7_entry_selection_witness :
    get_depgraph exC7mdb exC7cdb = some (exC7graph, [0]) ∧
    ((0 : Nat) ∈ ([0] : List Nat) ↔ ∃ w, (0, w) ∈ exC7graph.nodes ∧
      ∃ s, without_type_param w = some s ∧
        ∃ mi, slookup exC7mdb s = some mi ∧ mi.marking.is_entry_point = true) :=
  ⟨by decide, C7_entry_selection exC7mdb exC7cdb exC7graph [0] (by decide) 0⟩

/-! ## C8 -/

/-- C8: idempotence of analysis.  The graph, pruning and entry-point
computation are deterministic functions of the two stores, so two runs over
unchanged stores differ only in the iteration order of the `entry_points`
hash set (in this model: the order of the entry list) — and the per-entry
visited-set reset together with the exact auditor restoration make each
entry's contribution independent of the others.  For any two entry orders
that are permutations of one another, either both runs fail identically or
both succeed with reports whose audited entries and unaudited entries are
permutations of each other (hence equal as multisets and as sets). -/
theorem C8_idempotence (g : DepGraph) (db : List (Ident × MarkedItem)) (fuel : Nat)
    (es1 es2 : List Nat) (st : TravState)
    (hnd : (st.auditor.map Prod.fst).Nodup) (hp : es1.Perm es2) :
    (auditEntries g db fuel es1 st = none ∧ auditEntries g db fuel es2 st = none) ∨
    (∃ st1 st2, auditEntries g db fuel es1 st = some st1 ∧
      auditEntries g db fuel es2 st = some st2 ∧
      st1.audited.Perm st2.audited ∧ st1.unaudited.Perm st2.unaudited) := by
  cases h1 : auditEntries g db fuel es1 st with
  | none =>
    left
    refine ⟨rfl, ?_⟩
    cases h2 : auditEntries g db fuel es2 st with
    | none => rfl
    | some st2 =>
      exfalso
      obtain ⟨ds2, hds2, _, _⟩ := auditEntries_decomp es2 st st2 hnd h2
      cases hm1 : mapO (runEntry g db fuel st.auditor) es1 with
      | some ds1 =>
        obtain ⟨st1x, h1x⟩ := auditEntries_of_mapO es1 st hnd ds1 hm1
        rw [h1x] at h1
        exact Option.noConfusion h1
      | none =>
        rw [(mapO_perm_none hp).mp hm1] at hds2
        exact Option.noConfusion hds2
  | some st1 =>
    obtain ⟨ds1, hds1, ha1, hu1⟩ := auditEntries_decomp es1 st st1 hnd h1
    cases h2 : auditEntries g db fuel es2 st with
    | none =>
      exfalso
      cases hm2 : mapO (runEntry g db fuel st.auditor) es2 with
      | some ds2 =>
        obtain ⟨st2x, h2x⟩ := auditEntries_of_mapO es2 st hnd ds2 hm2
        rw [h2x] at h2
        exact Option.noConfusion h2
      | none =>
        rw [(mapO_perm_none hp).mpr hm2] at hds1
        exact Option.noConfusion hds1
    | some st2 =>
      right
      obtain ⟨ds2, hds2, ha2, hu2⟩ := auditEntries_decomp es2 st st2 hnd h2
      have hdp : ds1.Perm ds2 := mapO_perm hp hds1 hds2
      refine ⟨st1, st2, rfl, rfl, ?_, ?_⟩
      · rw [ha1, ha2]
        exact List.Perm.append (List.Perm.refl _) (perm_flatten (hdp.map Prod.fst))
      · rw [hu1, hu2]
        exact List.Perm.append (List.Perm.refl _) (perm_flatten (hdp.map Prod.snd))

def exC8cdb : List (Ident × List DepEdge) :=
  [(['M','<','>'], [mkEdge ['S'] false]),
   (['W','<','>'], [mkEdge ['S'] false])]

def exC8mdb : List (Ident × MarkedItem) :=
  [(['M'], mkMark none none true), (['W'], mkMark none none true),
   (['S'], mkMark (some ['g']) none false)]

def exC8graph : DepGraph :=
  { nodes := [(0, ['M','<','>']), (1, ['S','<','>']), (2, ['W','<','>'])],
    edges := [{ id := 0, source := 0, target := 1, weight := loc0 },
              { id := 1, source := 2, target := 1, weight := loc0 }] }

theorem C8_idempotence_witness :
    ([0, 2] : List Nat).Perm [2, 0] ∧
    ((auditEntries exC8graph exC8mdb 4 [0, 2] initTrav = none ∧
      auditEntries exC8graph exC8mdb 4 [2, 0] initTrav = none) ∨
     (∃ st1 st2, auditEntries exC8graph exC8mdb 4 [0, 2] initTrav = some st1 ∧
       auditEntries exC8graph exC8mdb 4 [2, 0] initTrav = some st2 ∧
       st1.audited.Perm st2.audited ∧ st1.unaudited.Perm st2.unaudited)) :=
  ⟨by decide,
   C8_idempotence exC8graph exC8mdb 4 [0, 2] [2, 0] initTrav (by decide) (by decide)⟩
